import Mathlib

/-!
# Race-condition maze (`aoc2024_20/main.cpp`): distance fields and cheat counting

A shallow embedding of `main.cpp`.

* C++ `int` values are mathematical integers; every `int` addition,
  subtraction and `abs` of the source is followed by `wrap32`, the reduction to
  32-bit two's complement (signed overflow, which C++ leaves undefined, wraps
  around as the hardware does).
* Every `for` loop is a left fold over the list of values its index takes
  (exact for grids whose dimensions fit in an `int`, as the source's `int`
  loop indices require).
* The two `while` loops (`Dijkstras`, `SimplePathFind`) take a fuel argument
  and return `none` when the fuel runs out before the loop condition fails.
* `utils.hpp` is not part of the sources: the grid type `TwoDVector` and the
  direction helpers are modelled from the specification, and the order in
  which `DirectionIterator()` yields the four directions is a parameter.
-/

namespace Aoc2024Day20

/-! ## Machine integers -/

/-- The value `INT32_MAX`, which the source uses as the "no distance" sentinel. -/
def INT32_MAX : Int := 2147483647

/-- Reduction of an integer to the 32-bit two's-complement range. -/
def wrap32 (v : Int) : Int := (v + 2147483648) % 4294967296 - 2147483648

/-- The `int` addition `a + b`. -/
def iadd (a b : Int) : Int := wrap32 (a + b)

/-- The `int` subtraction `a - b`. -/
def isub (a b : Int) : Int := wrap32 (a - b)

/-- The call `abs(a)` on an `int`. -/
def iabs (a : Int) : Int := wrap32 (a.natAbs : Int)

/-- The values taken by `i` in `for (int i = 0; i < n; ++i)`. -/
def loopLt (n : Nat) : List Int := (List.range n).map Int.ofNat

/-- The values taken by `i` in `for (int i = lo; i <= hi; ++i)`. -/
def loopLe (lo hi : Int) : List Int :=
  (List.range (hi + 1 - lo).toNat).map (fun k => lo + Int.ofNat k)

/-! ## Coordinates and grids -/

/-- The source's `struct Coord { int x; int y; }`. -/
structure Coord where
  x : Int
  y : Int
deriving DecidableEq, Repr

/-- Modelled from the spec: `TwoDVector<T>` is declared in `utils.hpp`, which is
not part of the sources. It is the "two-dimensional array, dimensions W×H" of
the spec, stored row by row: a row width `xDim` and the flat cell vector that
the source resizes to `XDim() * YDim()` and fills through `begin()`/`end()`. -/
structure TwoDVector (α : Type) where
  xDim : Nat
  data : List α
deriving DecidableEq, Repr

namespace TwoDVector

variable {α : Type}

/-- Modelled from the spec: the accessor `XDim()` of `TwoDVector`, the row
width W. -/
def XDim (v : TwoDVector α) : Nat := v.xDim

/-- Modelled from the spec: the accessor `YDim()` of `TwoDVector`, the number H
of complete rows. -/
def YDim (v : TwoDVector α) : Nat := v.data.length / v.xDim

/-- Modelled from the spec: the test `IsInBounds(x, y)` of `TwoDVector`,
`0 ≤ x < XDim()` and `0 ≤ y < YDim()`. -/
def IsInBounds (v : TwoDVector α) (x y : Int) : Bool :=
  decide (0 ≤ x) && decide (x < v.XDim) && decide (0 ≤ y) && decide (y < v.YDim)

/-- Modelled from the spec: the flat position `y * XDim() + x` of the cell
`[y][x]` of a `TwoDVector`. -/
def index (v : TwoDVector α) (y x : Int) : Nat := (y * v.xDim + x).toNat

/-- Modelled from the spec: the read `v[y][x]` of a `TwoDVector`, the cell at
the flat position of `[y][x]`; a position beyond the cell vector, which the
source would read out of bounds, yields `default`. -/
def get [Inhabited α] (v : TwoDVector α) (y x : Int) : α :=
  v.data.getD (v.index y x) default

/-- Modelled from the spec: the write `v[y][x] = a` of a `TwoDVector`, at the
flat position of `[y][x]`. A position beyond the cell vector, which the source
would write out of bounds, is outside the model (the list is left unchanged
there): the builders are analysed on grids where they write at cells of the
grid. -/
def set (v : TwoDVector α) (y x : Int) (a : α) : TwoDVector α :=
  { v with data := v.data.set (v.index y x) a }

end TwoDVector

/-- An ordered pair of coordinates: the current cell and the candidate cell. -/
abbrev Cheat := Coord × Coord

/-! ## Threshold mode: `ScoreCheats` -/

/-- The loop nest of `ScoreCheats` (lines 206-242), with the statement `++score`
of line 238 abstracted as `hit`, which receives the accumulator and the pair
(current cell, candidate cell) at which the statement is reached. -/
def ScoreCheatsLoop {σ : Type} (costGrid : TwoDVector Int) (cheatPeriod : Int)
    (hit : σ → Cheat → σ) (init : σ) : σ :=
  (loopLt costGrid.YDim).foldl (fun score y =>
    (loopLt costGrid.XDim).foldl (fun score x =>
      let currentCost := costGrid.get y x
      if currentCost = INT32_MAX then score
      else if currentCost < 100 then score
      else
        let yMin := max 0 (isub y cheatPeriod)
        let yMax := min (wrap32 ((costGrid.YDim : Int) - 1)) (iadd y cheatPeriod)
        (loopLe yMin yMax).foldl (fun score nextY =>
          let remainingSteps := isub cheatPeriod (iabs (isub y nextY))
          let xMin := max 0 (isub x remainingSteps)
          let xMax := min (wrap32 ((costGrid.XDim : Int) - 1)) (iadd x remainingSteps)
          (loopLe xMin xMax).foldl (fun score nextX =>
            let nextCost := costGrid.get nextY nextX
            if nextCost = INT32_MAX then score
            else
              let cheatCost := iadd (iabs (isub nextX x)) (iabs (isub nextY y))
              let nextCost := iadd nextCost cheatCost
              if iadd nextCost 100 > currentCost then score
              else hit score (⟨x, y⟩, ⟨nextX, nextY⟩)) score) score) score) init

/-- The function `ScoreCheats(costGrid, cheatPeriod)`: the loop nest with
`++score` on an `int` counter that starts at 0. -/
def ScoreCheats (costGrid : TwoDVector Int) (cheatPeriod : Int) : Int :=
  ScoreCheatsLoop costGrid cheatPeriod (fun score _ => iadd score 1) 0

/-- The pairs at which `ScoreCheats` executes `++score`, in execution order. -/
def ScoreCheatsHits (costGrid : TwoDVector Int) (cheatPeriod : Int) : List Cheat :=
  ScoreCheatsLoop costGrid cheatPeriod (fun hits c => hits ++ [c]) []

/-- The pairs at which `ScoreCheats` executes `++score`, as a comprehension over
the four loop ranges (equal to `ScoreCheatsHits`, see `ScoreCheatsHits_eq`). -/
def scoreCheatsPairs (costGrid : TwoDVector Int) (cheatPeriod : Int) : List Cheat :=
  (loopLt costGrid.YDim).flatMap (fun y =>
    (loopLt costGrid.XDim).flatMap (fun x =>
      if costGrid.get y x = INT32_MAX then []
      else if costGrid.get y x < 100 then []
      else
        (loopLe (max 0 (isub y cheatPeriod))
            (min (wrap32 ((costGrid.YDim : Int) - 1)) (iadd y cheatPeriod))).flatMap (fun nextY =>
          (loopLe (max 0 (isub x (isub cheatPeriod (iabs (isub y nextY)))))
              (min (wrap32 ((costGrid.XDim : Int) - 1))
                (iadd x (isub cheatPeriod (iabs (isub y nextY)))))).flatMap (fun nextX =>
            if costGrid.get nextY nextX = INT32_MAX then []
            else if iadd (iadd (costGrid.get nextY nextX)
                (iadd (iabs (isub nextX x)) (iabs (isub nextY y)))) 100 > costGrid.get y x then []
            else [((⟨x, y⟩, ⟨nextX, nextY⟩) : Cheat)]))))

/-! ## Histogram mode: `CountCheats` and `Score` -/

/-- The statement `++cheats[key]` on a `std::map<int, int>`, held as the list of
its entries in increasing key order: `operator[]` inserts the key with count 0
when it is absent, and the count is then incremented. -/
def mapIncrement : List (Int × Int) → Int → List (Int × Int)
  | [], key => [(key, iadd 0 1)]
  | (k, v) :: rest, key =>
    if key < k then (key, iadd 0 1) :: (k, v) :: rest
    else if key = k then (k, iadd v 1) :: rest
    else (k, v) :: mapIncrement rest key

/-- The loop nest of `CountCheats` (lines 170-199), with the statements of lines
191-195 abstracted as `hit`, which receives the accumulator, the pair (current
cell, candidate cell) and the value `currentCost - nextCost`. -/
def CountCheatsLoop {σ : Type} (costGrid : TwoDVector Int)
    (hit : σ → Cheat × Int → σ) (init : σ) : σ :=
  (loopLt costGrid.YDim).foldl (fun st y =>
    (loopLt costGrid.XDim).foldl (fun st x =>
      let currentCost := costGrid.get y x
      if currentCost = INT32_MAX then st
      else
        (loopLe (-20) 20).foldl (fun st yStep =>
          (loopLe (-20) 20).foldl (fun st xStep =>
            let cheatCost := iadd (iabs xStep) (iabs yStep)
            if cheatCost > 20 then st
            else
              let nextY := iadd y yStep
              let nextX := iadd x xStep
              if !costGrid.IsInBounds nextX nextY then st
              else
                let nextCost := costGrid.get nextY nextX
                if nextCost = INT32_MAX then st
                else
                  let nextCost := iadd nextCost cheatCost
                  if nextCost ≥ currentCost then st
                  else hit st ((⟨x, y⟩, ⟨nextX, nextY⟩), isub currentCost nextCost)) st) st)
      st) init

/-- Lines 191-195 of `CountCheats`: skip a pair already in `cheatsSeen`,
otherwise record it and increment the histogram entry of its saving. The state
is the pair (`cheatsSeen`, `cheats`). -/
def recordCheat (st : List Cheat × List (Int × Int)) (h : Cheat × Int) :
    List Cheat × List (Int × Int) :=
  if h.1 ∈ st.1 then st
  else (h.1 :: st.1, mapIncrement st.2 h.2)

/-- The function `CountCheats(costGrid)`: the histogram `cheats` after the loop
nest, starting from an empty seen-set and an empty histogram. -/
def CountCheats (costGrid : TwoDVector Int) : List (Int × Int) :=
  (CountCheatsLoop costGrid recordCheat ([], [])).2

/-- The pairs that reach line 191 of `CountCheats` (before the seen-set is
consulted), each with its value `currentCost - nextCost`, in execution order. -/
def CountCheatsHits (costGrid : TwoDVector Int) : List (Cheat × Int) :=
  CountCheatsLoop costGrid (fun hits h => hits ++ [h]) []

/-- The function `Score(cheats)`: starting from `lower_bound(100)`, the first
entry whose key is not below 100, add up the counts of the entries whose key is
not below 100. -/
def Score (cheats : List (Int × Int)) : Int :=
  (cheats.dropWhile (fun e => decide (e.1 < 100))).foldl
    (fun total e => if e.1 < 100 then total else iadd total e.2) 0

/-- The sum, over the integers, of the counts stored under keys that are at
least 100. -/
def sumAtLeast100 (cheats : List (Int × Int)) : Int :=
  ((cheats.filter (fun e => decide (100 ≤ e.1))).map (fun e => e.2)).sum

/-- The well-formedness of a `std::map<int, int>` held as its entry list: the
entries are in strictly increasing key order. -/
def IsStdMap (m : List (Int × Int)) : Prop :=
  m.Pairwise (fun a b => a.1 < b.1)

/-- Every pair (current cell, candidate cell) that the four loops of
`CountCheats` run through: one for each in-grid cell and each step in the
41×41 square. -/
def countCheatsCandidates (costGrid : TwoDVector Int) : List Cheat :=
  (loopLt costGrid.YDim).flatMap (fun y =>
    (loopLt costGrid.XDim).flatMap (fun x =>
      (loopLe (-20) 20).flatMap (fun yStep =>
        (loopLe (-20) 20).map (fun xStep =>
          ((⟨x, y⟩, ⟨iadd x xStep, iadd y yStep⟩) : Cheat)))))

/-- The pairs that reach line 191 of `CountCheats`, as a comprehension over the
four loop ranges (equal to `CountCheatsHits`, see `CountCheatsHits_eq`). -/
def countCheatsPairs (costGrid : TwoDVector Int) : List (Cheat × Int) :=
  (loopLt costGrid.YDim).flatMap (fun y =>
    (loopLt costGrid.XDim).flatMap (fun x =>
      if costGrid.get y x = INT32_MAX then []
      else
        (loopLe (-20) 20).flatMap (fun yStep =>
          (loopLe (-20) 20).flatMap (fun xStep =>
            if iadd (iabs xStep) (iabs yStep) > 20 then []
            else if !costGrid.IsInBounds (iadd x xStep) (iadd y yStep) then []
            else if costGrid.get (iadd y yStep) (iadd x xStep) = INT32_MAX then []
            else if iadd (costGrid.get (iadd y yStep) (iadd x xStep))
                (iadd (iabs xStep) (iabs yStep)) ≥ costGrid.get y x then []
            else [(((⟨x, y⟩, ⟨iadd x xStep, iadd y yStep⟩) : Cheat),
              isub (costGrid.get y x) (iadd (costGrid.get (iadd y yStep) (iadd x xStep))
                (iadd (iabs xStep) (iabs yStep))))]))))

/-! ## Distance fields: `Dijkstras` and `SimplePathFind` -/

/-- Modelled from the spec: the direction type of `utils.hpp`, which is not part
of the sources; the spec names "the four neighbors (up/down/left/right)". -/
inductive Direction where
  | up
  | right
  | down
  | left
deriving DecidableEq, Repr

/-- Modelled from the spec: `DirectionToX` of `utils.hpp`, the change of `x`
when moving one cell in a direction. -/
def DirectionToX : Direction → Int
  | .right => 1
  | .left => -1
  | _ => 0

/-- Modelled from the spec: `DirectionToY` of `utils.hpp`, the change of `y`
when moving one cell in a direction (row 0 is the top row). -/
def DirectionToY : Direction → Int
  | .up => -1
  | .down => 1
  | _ => 0

/-- Modelled from the spec: one order in which `DirectionIterator()` of
`utils.hpp` can yield the four directions. The functions below take the
iteration order as the parameter `dirs`; this order serves the examples. -/
def DirectionIterator : List Direction := [.up, .right, .down, .left]

/-- The neighbour of `coord` in a direction, lines 82-85 and 148-151. -/
def nextCoordOf (coord : Coord) (direction : Direction) : Coord :=
  ⟨iadd coord.x (DirectionToX direction), iadd coord.y (DirectionToY direction)⟩

/-- The marker scan of lines 55-68 and 123-136: the pair (`raceStart`,
`raceEnd`), each the last cell in row order holding its marker, or (0, 0). -/
def findMarkers (input : TwoDVector Char) : Coord × Coord :=
  (loopLt input.YDim).foldl (fun st y =>
    (loopLt input.XDim).foldl (fun st x =>
      let st : Coord × Coord := if input.get y x = 'S' then (⟨x, y⟩, st.2) else st
      if input.get y x = 'E' then (st.1, ⟨x, y⟩) else st) st) (⟨0, 0⟩, ⟨0, 0⟩)

/-- The cost field after lines 50-53 (and 118-121): the dimensions of the
input, every entry `INT32_MAX`. -/
def initialCosts (input : TwoDVector Char) : TwoDVector Int :=
  ⟨input.XDim, List.replicate (input.XDim * input.YDim) INT32_MAX⟩

/-- The conversion of an `int` to the `size_t` key of `candidates`. -/
def toSizeT (v : Int) : Nat := (v % 18446744073709551616).toNat

/-- The access `candidates[key]` followed by an update `f` of the bucket, on a
`std::map<size_t, std::vector<Coord>>` held as its entry list in increasing key
order: `operator[]` inserts an empty bucket when the key is absent. -/
def bucketModify (f : List Coord → List Coord) :
    List (Nat × List Coord) → Nat → List (Nat × List Coord)
  | [], key => [(key, f [])]
  | (k, b) :: rest, key =>
    if key < k then (key, f []) :: (k, b) :: rest
    else if key = k then (k, f b) :: rest
    else (k, b) :: bucketModify f rest key

/-- The bucket read by `candidates[key]` once the key is present. -/
def bucketGet (m : List (Nat × List Coord)) (key : Nat) : List Coord :=
  match m.find? (fun e => e.1 == key) with
  | some e => e.2
  | none => []

/-- The call `candidates.erase(key)`. -/
def bucketErase (m : List (Nat × List Coord)) (key : Nat) : List (Nat × List Coord) :=
  m.filter (fun e => e.1 != key)

/-- Modelled from the spec: `EasyErase(bucket, coord)` of `utils.hpp`, which
removes a coordinate from a bucket ("moving a coordinate between buckets"). -/
def EasyErase (bucket : List Coord) (coord : Coord) : List Coord := bucket.erase coord

/-- The state of the `while` loop of `Dijkstras`. -/
structure DijkstraState where
  costs : TwoDVector Int
  candidates : List (Nat × List Coord)
deriving DecidableEq, Repr

/-- The body of the direction loop of `Dijkstras`, lines 82-105. -/
def relax (input : TwoDVector Char) (st : DijkstraState) (coord : Coord)
    (direction : Direction) : DijkstraState :=
  let nextCoord := nextCoordOf coord direction
  if !input.IsInBounds nextCoord.x nextCoord.y then st
  else if input.get nextCoord.y nextCoord.x = '#' then st
  else
    let nextCost := iadd (st.costs.get coord.y coord.x) 1
    let currentNextCost := st.costs.get nextCoord.y nextCoord.x
    if nextCost ≥ currentNextCost then st
    else
      let candidates :=
        if currentNextCost ≠ INT32_MAX then
          let erased := bucketModify (fun b => EasyErase b nextCoord) st.candidates
            (toSizeT currentNextCost)
          if (bucketGet erased (toSizeT currentNextCost)).isEmpty then
            bucketErase erased (toSizeT currentNextCost)
          else erased
        else st.candidates
      { costs := st.costs.set nextCoord.y nextCoord.x nextCost,
        candidates := bucketModify (fun b => b ++ [nextCoord]) candidates (toSizeT nextCost) }

/-- One iteration of the `while` loop of `Dijkstras`, lines 75-107: take the
first bucket, erase its key, and relax the neighbours of each of its cells. -/
def DijkstrasStep (dirs : List Direction) (input : TwoDVector Char)
    (st : DijkstraState) : DijkstraState :=
  match st.candidates with
  | [] => st
  | (cost, nextCoords) :: _ =>
    nextCoords.foldl (fun st coord => dirs.foldl (fun st d => relax input st coord d) st)
      { st with candidates := bucketErase st.candidates cost }

/-- The `while (!candidates.empty())` loop of `Dijkstras`; `none` when the fuel
runs out before the queue is empty. -/
def DijkstrasLoop (dirs : List Direction) (input : TwoDVector Char) :
    Nat → DijkstraState → Option (TwoDVector Int)
  | 0, _ => none
  | fuel + 1, st =>
    if st.candidates.isEmpty then some st.costs
    else DijkstrasLoop dirs input fuel (DijkstrasStep dirs input st)

/-- The function `Dijkstras(input)`, with the iteration order of the directions
and the fuel of its `while` loop as parameters. -/
def Dijkstras (dirs : List Direction) (input : TwoDVector Char) (fuel : Nat) :
    Option (TwoDVector Int) :=
  let raceEnd := (findMarkers input).2
  DijkstrasLoop dirs input fuel
    { costs := (initialCosts input).set raceEnd.y raceEnd.x 0,
      candidates := [(0, [raceEnd])] }

/-- The direction loop of `SimplePathFind`, lines 146-159: the neighbour in the
first direction that is in bounds, not a wall and not yet given a cost, or
`coord` itself when there is none. -/
def nextUnvisited (dirs : List Direction) (input : TwoDVector Char)
    (costs : TwoDVector Int) (coord : Coord) : Coord :=
  match dirs.find? (fun d =>
      costs.IsInBounds (nextCoordOf coord d).x (nextCoordOf coord d).y
        && decide (input.get (nextCoordOf coord d).y (nextCoordOf coord d).x ≠ '#')
        && decide (costs.get (nextCoordOf coord d).y (nextCoordOf coord d).x = INT32_MAX)) with
  | some d => nextCoordOf coord d
  | none => coord

/-- The `while (coord != raceStart)` loop of `SimplePathFind` followed by the
final assignment of line 162; `none` when the fuel runs out before the start
is reached. The state is (`costs`, `coord`, `cost`). -/
def SimplePathFindLoop (dirs : List Direction) (input : TwoDVector Char)
    (raceStart : Coord) : Nat → TwoDVector Int → Coord → Int → Option (TwoDVector Int)
  | 0, _, _, _ => none
  | fuel + 1, costs, coord, cost =>
    if coord = raceStart then some (costs.set coord.y coord.x cost)
    else
      let costs := costs.set coord.y coord.x cost
      SimplePathFindLoop dirs input raceStart fuel costs
        (nextUnvisited dirs input costs coord) (iadd cost 1)

/-- The function `SimplePathFind(input)`, with the iteration order of the
directions and the fuel of its `while` loop as parameters. -/
def SimplePathFind (dirs : List Direction) (input : TwoDVector Char) (fuel : Nat) :
    Option (TwoDVector Int) :=
  SimplePathFindLoop dirs input (findMarkers input).1 fuel (initialCosts input)
    (findMarkers input).2 0

/-! ## The counting problem in the words of the specification -/

/-- The in-grid coordinates of a field, row by row. -/
def TwoDVector.coords {α : Type} (v : TwoDVector α) : List Coord :=
  (loopLt v.YDim).flatMap (fun y => (loopLt v.XDim).map (fun x => (⟨x, y⟩ : Coord)))

/-- The Manhattan distance `|Δx| + |Δy|` between two coordinates. -/
def ManhattanDistance (a b : Coord) : Int :=
  ((a.x - b.x).natAbs : Int) + ((a.y - b.y).natAbs : Int)

/-- The entry of the distance field at a coordinate. -/
def distance (costGrid : TwoDVector Int) (a : Coord) : Int := costGrid.get a.y a.x

/-- The saving of the cheat from `a` to `b`:
`distance(a) − distance(b) − ManhattanDistance(a, b)`, over the integers. -/
def saving (costGrid : TwoDVector Int) (a b : Coord) : Int :=
  distance costGrid a - distance costGrid b - ManhattanDistance a b

/-- The ordered pairs of in-grid coordinates that both hold a defined distance
and lie within Manhattan distance `radius` of each other. -/
def cheatsWithin (costGrid : TwoDVector Int) (radius : Int) : List Cheat :=
  (costGrid.coords.product costGrid.coords).filter (fun c =>
    decide (distance costGrid c.1 ≠ INT32_MAX) && decide (distance costGrid c.2 ≠ INT32_MAX)
      && decide (ManhattanDistance c.1 c.2 ≤ radius))

/-- The number of cheats within `radius` whose saving is at least `threshold`. -/
def cheatCountAtLeast (costGrid : TwoDVector Int) (radius threshold : Int) : Nat :=
  ((cheatsWithin costGrid radius).filter
    (fun c => decide (threshold ≤ saving costGrid c.1 c.2))).length

/-- The number of cheats within `radius` whose saving is exactly `s`. -/
def cheatCountExactly (costGrid : TwoDVector Int) (radius s : Int) : Nat :=
  ((cheatsWithin costGrid radius).filter
    (fun c => decide (saving costGrid c.1 c.2 = s))).length

/-! ## Shortest paths in the words of the specification -/

/-- A cell that can be walked on: in the grid and not a wall. -/
def IsOpen (input : TwoDVector Char) (c : Coord) : Prop :=
  input.IsInBounds c.x c.y = true ∧ input.get c.y c.x ≠ '#'

/-- Two cells are 4-adjacent. -/
def Adjacent (a b : Coord) : Prop := ManhattanDistance a b = 1

/-- `WalkTo input e n c`: there is a walk of `n` steps from `e` to `c` through
4-adjacent cells that are all in the grid and not walls. -/
inductive WalkTo (input : TwoDVector Char) (e : Coord) : Nat → Coord → Prop where
  | start : IsOpen input e → WalkTo input e 0 e
  | step {n : Nat} {c c' : Coord} :
      WalkTo input e n c → Adjacent c c' → IsOpen input c' → WalkTo input e (n + 1) c'

/-- `ShortestWalk input e n c`: the shortest walk from `e` to `c` through open
cells has `n` steps. -/
def ShortestWalk (input : TwoDVector Char) (e : Coord) (n : Nat) (c : Coord) : Prop :=
  WalkTo input e n c ∧ ∀ m, WalkTo input e m c → n ≤ m

/-- The cost field has the shape given to it by lines 50-51. -/
def SameShape (input : TwoDVector Char) (costs : TwoDVector Int) : Prop :=
  costs.xDim = input.XDim ∧ costs.data.length = input.XDim * input.YDim

/-- The true shortest-path field of the maze towards `e`: each cell of the grid
that a walk through open cells connects to `e` holds the length of a shortest
such walk, and every other cell of the grid holds `INT32_MAX`. -/
def IsDistanceField (input : TwoDVector Char) (e : Coord) (costs : TwoDVector Int) : Prop :=
  SameShape input costs ∧
    ∀ c ∈ input.coords,
      (∀ n, ShortestWalk input e n c → costs.get c.y c.x = (n : Int)) ∧
      ((∀ n, ¬ WalkTo input e n c) → costs.get c.y c.x = INT32_MAX)

/-- The `i`-th cell of a path. -/
def cellAt (path : List Coord) (i : Nat) : Coord := path.getD i ⟨0, 0⟩

/-- Adjacency of two cells can be computed. -/
instance (a b : Coord) : Decidable (Adjacent a b) := by
  unfold Adjacent
  infer_instance

/-- Whether a cell is open can be computed. -/
instance (input : TwoDVector Char) (c : Coord) : Decidable (IsOpen input c) := by
  unfold IsOpen
  infer_instance

/-- The maze is a branch-free corridor: `path` lists, from the end cell to the
start cell and without repetition, exactly the cells of the grid that are not
walls; two cells of the path are 4-adjacent exactly when they are consecutive;
the first cell is the only 'E' of the grid and the last cell the only 'S'. -/
def IsCorridorMaze (input : TwoDVector Char) (path : List Coord) : Prop :=
  path ≠ [] ∧ path.Nodup ∧
  (∀ c ∈ path, IsOpen input c) ∧
  (∀ c ∈ input.coords, input.get c.y c.x ≠ '#' → c ∈ path) ∧
  (∀ i, i < path.length → ∀ j, j < path.length →
    (Adjacent (cellAt path i) (cellAt path j) ↔ (i + 1 = j ∨ j + 1 = i))) ∧
  (∀ c ∈ input.coords, input.get c.y c.x = 'E' ↔ c = cellAt path 0) ∧
  (∀ c ∈ input.coords, input.get c.y c.x = 'S' ↔ c = cellAt path (path.length - 1))

/-! ## Invariants of the two distance builders -/

/-- While the bucket of cost `j - 1` is being processed (and when the bucket of
cost `j` is about to be taken): every finite cost is the length of a shortest
walk and is at most `j`, and the queue holds exactly the cells of cost `j`. -/
def FieldShape (input : TwoDVector Char) (e : Coord) (j : Nat) (st : DijkstraState) : Prop :=
  SameShape input st.costs ∧
  (∀ c ∈ input.coords, st.costs.get c.y c.x = INT32_MAX ∨
    ∃ n : Nat, n ≤ j ∧ st.costs.get c.y c.x = (n : Int) ∧ ShortestWalk input e n c) ∧
  ((st.candidates = [] ∧ ∀ c ∈ input.coords, st.costs.get c.y c.x ≠ (j : Int)) ∨
    ∃ L : List Coord, L ≠ [] ∧ st.candidates = [(j, L)] ∧
      ∀ c, c ∈ L ↔ (c ∈ input.coords ∧ st.costs.get c.y c.x = (j : Int)))

/-- Every cell whose shortest walk has at most `k` steps holds that length. -/
def LevelsDone (input : TwoDVector Char) (e : Coord) (k : Nat) (st : DijkstraState) : Prop :=
  ∀ c n, n ≤ k → ShortestWalk input e n c → st.costs.get c.y c.x = (n : Int)

/-- A finite cost is never changed again. -/
def Persist (input : TwoDVector Char) (st st' : DijkstraState) : Prop :=
  ∀ c ∈ input.coords, st.costs.get c.y c.x ≠ INT32_MAX →
    st'.costs.get c.y c.x = st.costs.get c.y c.x

/-- The loop invariant of `Dijkstras` when the bucket of cost `k` is the next
to be taken. -/
def LoopInv (input : TwoDVector Char) (e : Coord) (k : Nat) (st : DijkstraState) : Prop :=
  FieldShape input e k st ∧ LevelsDone input e k st ∧
    ∀ j, j < k → ∃ c, ShortestWalk input e j c

/-- The grid with the given rows, for the example mazes. -/
def gridOfRows (rows : List String) : TwoDVector Char :=
  ⟨(rows.headD "").length, rows.flatMap String.toList⟩

/-- The function `CountCheats` with the deduplication removed (lines 191-192
deleted): every pair that reaches line 191 increments the histogram entry of its
saving. -/
def CountCheatsNoSeen (costGrid : TwoDVector Int) : List (Int × Int) :=
  CountCheatsLoop costGrid (fun cheats h => mapIncrement cheats h.2) []

/-- Lines 191-195 of `CountCheats` with the outcome of the lookup
`cheatsSeen.count(cheatId)` recorded: the state is the pair of the state of
`recordCheat` and the list of the pairs that the lookup found already present. -/
def recordLookup (st : (List Cheat × List (Int × Int)) × List Cheat) (h : Cheat × Int) :
    (List Cheat × List (Int × Int)) × List Cheat :=
  (recordCheat st.1 h, if h.1 ∈ st.1.1 then st.2 ++ [h.1] else st.2)

/-- The pairs that the lookup `cheatsSeen.count(cheatId)` of line 191 finds
already present during a run of `CountCheats`, in execution order. -/
def CountCheatsFound (costGrid : TwoDVector Int) : List Cheat :=
  (CountCheatsLoop costGrid recordLookup (([], []), [])).2

/-- The number of cheats whose Manhattan distance is above `lo` and at most
`hi` and whose saving is at least `threshold`. -/
def cheatCountBetween (costGrid : TwoDVector Int) (lo hi threshold : Int) : Nat :=
  ((cheatsWithin costGrid hi).filter
    (fun c => decide (lo < ManhattanDistance c.1 c.2)
      && decide (threshold ≤ saving costGrid c.1 c.2))).length

/-! ## The grid accesses of `ScoreCheats` -/

/-- The loop nest of `ScoreCheats` (lines 206-242) with its accesses to
`costGrid` made visible: `read` receives the accumulator and the coordinate of
each read `costGrid[..][..]` (lines 210 and 230), `check` the coordinate tested
by each of the two commented-out assertions `IsInBounds(..)` (lines 219 and
227), and `hit` the pair at which `++score` is reached. -/
def ScoreCheatsTrace {σ : Type} (costGrid : TwoDVector Int) (cheatPeriod : Int)
    (read check : σ → Coord → σ) (hit : σ → Cheat → σ) (init : σ) : σ :=
  (loopLt costGrid.YDim).foldl (fun score y =>
    (loopLt costGrid.XDim).foldl (fun score x =>
      let score := read score ⟨x, y⟩
      let currentCost := costGrid.get y x
      if currentCost = INT32_MAX then score
      else if currentCost < 100 then score
      else
        let yMin := max 0 (isub y cheatPeriod)
        let yMax := min (wrap32 ((costGrid.YDim : Int) - 1)) (iadd y cheatPeriod)
        (loopLe yMin yMax).foldl (fun score nextY =>
          let score := check score ⟨0, nextY⟩
          let remainingSteps := isub cheatPeriod (iabs (isub y nextY))
          let xMin := max 0 (isub x remainingSteps)
          let xMax := min (wrap32 ((costGrid.XDim : Int) - 1)) (iadd x remainingSteps)
          (loopLe xMin xMax).foldl (fun score nextX =>
            let score := check score ⟨nextX, nextY⟩
            let score := read score ⟨nextX, nextY⟩
            let nextCost := costGrid.get nextY nextX
            if nextCost = INT32_MAX then score
            else
              let cheatCost := iadd (iabs (isub nextX x)) (iabs (isub nextY y))
              let nextCost := iadd nextCost cheatCost
              if iadd nextCost 100 > currentCost then score
              else hit score (⟨x, y⟩, ⟨nextX, nextY⟩)) score) score) score) init

/-- The coordinates at which `ScoreCheats` reads `costGrid` (lines 210 and
230), in execution order. -/
def ScoreCheatsReads (costGrid : TwoDVector Int) (cheatPeriod : Int) : List Coord :=
  ScoreCheatsTrace costGrid cheatPeriod (fun reads c => reads ++ [c]) (fun reads _ => reads)
    (fun reads _ => reads) []

/-- The coordinates that the two commented-out assertions of `ScoreCheats`
(lines 219 and 227) would test, in execution order. -/
def ScoreCheatsChecks (costGrid : TwoDVector Int) (cheatPeriod : Int) : List Coord :=
  ScoreCheatsTrace costGrid cheatPeriod (fun checks _ => checks) (fun checks c => checks ++ [c])
    (fun checks _ => checks) []

/-! ## Grids without markers, open cells and `PrintGrid` -/

/-- A 4×3 maze with two open cells and neither an 'S' nor an 'E'. -/
def markerlessMaze : TwoDVector Char :=
  gridOfRows ["####", "#..#", "####"]

/-- A 3×2 maze with an 'S' and no 'E' whose corner (0, 0) is an open cell. -/
def noEndMaze : TwoDVector Char :=
  gridOfRows ["..#", "#.S"]

/-- One execution of the body of the direction loop of `Dijkstras` (lines
82-105): the state in which it starts, the cell being expanded and the
direction. -/
structure RelaxCall where
  st : DijkstraState
  coord : Coord
  direction : Direction

/-- The execution reaches line 95: the neighbour is in bounds (line 87) and not
a wall (line 88) and the relaxation test `nextCost < currentNextCost` succeeds
(line 93), so that the neighbour is assigned a cost (line 104) and pushed onto
a bucket (line 105). -/
def relaxAssigns (input : TwoDVector Char) (c : RelaxCall) : Bool :=
  let nextCoord := nextCoordOf c.coord c.direction
  input.IsInBounds nextCoord.x nextCoord.y
    && decide (input.get nextCoord.y nextCoord.x ≠ '#')
    && decide (¬ iadd (c.st.costs.get c.coord.y c.coord.x) 1
        ≥ c.st.costs.get nextCoord.y nextCoord.x)

/-- The non-'#' cells connected to the end cell form a single simple path with
endpoints E and S: `path` lists without repetition, from an 'E' cell to an 'S'
cell, open cells that include every cell a walk through open cells connects
to the first one, and two cells of the path are 4-adjacent exactly when they
are consecutive. -/
def IsCorridorToEnd (input : TwoDVector Char) (path : List Coord) : Prop :=
  path ≠ [] ∧ path.Nodup ∧
  (∀ c ∈ path, IsOpen input c) ∧
  input.get (cellAt path 0).y (cellAt path 0).x = 'E' ∧
  input.get (cellAt path (path.length - 1)).y (cellAt path (path.length - 1)).x = 'S' ∧
  (∀ c n, WalkTo input (cellAt path 0) n c → c ∈ path) ∧
  (∀ i, i < path.length → ∀ j, j < path.length →
    (Adjacent (cellAt path i) (cellAt path j) ↔ (i + 1 = j ∨ j + 1 = i)))

/-- The open cells of the maze form one simple path: `path` lists them without
repetition from the end cell, two of them are 4-adjacent exactly when they are
consecutive, the first cell is the only 'E' of the grid, and the only 'S' of
the grid is the cell at position `m` (the last position in a corridor maze). -/
def IsPathMaze (input : TwoDVector Char) (path : List Coord) (m : Nat) : Prop :=
  m < path.length ∧ path.Nodup ∧
  (∀ c ∈ path, IsOpen input c) ∧
  (∀ c ∈ input.coords, input.get c.y c.x ≠ '#' → c ∈ path) ∧
  (∀ i, i < path.length → ∀ j, j < path.length →
    (Adjacent (cellAt path i) (cellAt path j) ↔ (i + 1 = j ∨ j + 1 = i))) ∧
  (∀ c ∈ input.coords, input.get c.y c.x = 'E' ↔ c = cellAt path 0) ∧
  (∀ c ∈ input.coords, input.get c.y c.x = 'S' ↔ c = cellAt path m)

theorem wrap32_of_range {v : Int} (h1 : -2147483648 ≤ v) (h2 : v < 2147483648) :
    wrap32 v = v := by
  unfold wrap32; omega

theorem wrap32_wrap32_add (a b : Int) : wrap32 (wrap32 a + b) = wrap32 (a + b) := by
  unfold wrap32; omega

theorem foldl_iadd_one {β : Type} (l : List β) (s : Int) :
    l.foldl (fun score _ => iadd score 1) (wrap32 s) = wrap32 (s + l.length) := by
  induction l generalizing s with
  | nil => simp
  | cons a l ih =>
    simp only [List.foldl_cons, List.length_cons]
    show List.foldl _ (wrap32 (wrap32 s + 1)) l = _
    rw [wrap32_wrap32_add, ih]; congr 1; push_cast; ring

/-! ## Loops as comprehensions -/

theorem foldl_flatMap_eq {α β σ : Type} (hit : σ → β → σ) (g : α → List β) (l : List α)
    (init : σ) :
    (l.flatMap g).foldl hit init = l.foldl (fun s a => (g a).foldl hit s) init := by
  induction l generalizing init with
  | nil => simp
  | cons a l ih => simp [List.flatMap_cons, List.foldl_append, ih]

theorem ScoreCheatsLoop_eq {σ : Type} (costGrid : TwoDVector Int) (cheatPeriod : Int)
    (hit : σ → Cheat → σ) (init : σ) :
    ScoreCheatsLoop costGrid cheatPeriod hit init
      = (scoreCheatsPairs costGrid cheatPeriod).foldl hit init := by
  unfold ScoreCheatsLoop scoreCheatsPairs
  simp only [foldl_flatMap_eq]
  refine List.foldl_ext _ _ _ (fun s y _ => ?_)
  refine List.foldl_ext _ _ _ (fun s x _ => ?_)
  by_cases h1 : costGrid.get y x = INT32_MAX
  · simp [h1]
  by_cases h2 : costGrid.get y x < 100
  · simp [h1, h2]
  simp only [h1, h2, if_false]
  rw [foldl_flatMap_eq]
  refine List.foldl_ext _ _ _ (fun s nextY _ => ?_)
  rw [foldl_flatMap_eq]
  refine List.foldl_ext _ _ _ (fun s nextX _ => ?_)
  by_cases h3 : costGrid.get nextY nextX = INT32_MAX
  · simp [h3]
  simp only [h3, if_false]
  split <;> simp

theorem foldl_snoc_eq {β : Type} (l acc : List β) :
    l.foldl (fun hits c => hits ++ [c]) acc = acc ++ l := by
  induction l generalizing acc with
  | nil => simp
  | cons a l ih => simp [ih]

theorem ScoreCheatsHits_eq (costGrid : TwoDVector Int) (cheatPeriod : Int) :
    ScoreCheatsHits costGrid cheatPeriod = scoreCheatsPairs costGrid cheatPeriod := by
  unfold ScoreCheatsHits
  rw [ScoreCheatsLoop_eq, foldl_snoc_eq, List.nil_append]

theorem ScoreCheats_eq_length (costGrid : TwoDVector Int) (cheatPeriod : Int) :
    ScoreCheats costGrid cheatPeriod
      = wrap32 ((ScoreCheatsHits costGrid cheatPeriod).length : Int) := by
  unfold ScoreCheats
  rw [ScoreCheatsLoop_eq, ScoreCheatsHits_eq]
  have h := foldl_iadd_one (scoreCheatsPairs costGrid cheatPeriod) 0
  simpa [wrap32] using h

theorem CountCheatsLoop_eq {σ : Type} (costGrid : TwoDVector Int)
    (hit : σ → Cheat × Int → σ) (init : σ) :
    CountCheatsLoop costGrid hit init = (countCheatsPairs costGrid).foldl hit init := by
  unfold CountCheatsLoop countCheatsPairs
  simp only [foldl_flatMap_eq]
  refine List.foldl_ext _ _ _ (fun s y _ => ?_)
  refine List.foldl_ext _ _ _ (fun s x _ => ?_)
  by_cases h1 : costGrid.get y x = INT32_MAX
  · simp [h1]
  simp only [h1, if_false]
  rw [foldl_flatMap_eq]
  refine List.foldl_ext _ _ _ (fun s yStep _ => ?_)
  rw [foldl_flatMap_eq]
  refine List.foldl_ext _ _ _ (fun s xStep _ => ?_)
  split
  · simp
  split
  · simp
  split
  · simp
  split <;> simp

theorem CountCheatsHits_eq (costGrid : TwoDVector Int) :
    CountCheatsHits costGrid = countCheatsPairs costGrid := by
  unfold CountCheatsHits
  rw [CountCheatsLoop_eq, foldl_snoc_eq, List.nil_append]

theorem CountCheats_eq (costGrid : TwoDVector Int) :
    CountCheats costGrid = ((countCheatsPairs costGrid).foldl recordCheat ([], [])).2 := by
  unfold CountCheats
  rw [CountCheatsLoop_eq]

theorem mem_loopLt {n : Nat} {a : Int} : a ∈ loopLt n ↔ 0 ≤ a ∧ a < n := by
  unfold loopLt
  simp only [List.mem_map, List.mem_range]
  constructor
  · rintro ⟨k, hk, rfl⟩
    simp only [Int.ofNat_eq_coe]
    omega
  · rintro ⟨h0, h1⟩
    refine ⟨a.toNat, by omega, ?_⟩
    simp [Int.toNat_of_nonneg h0]

theorem mem_loopLe {lo hi a : Int} : a ∈ loopLe lo hi ↔ lo ≤ a ∧ a ≤ hi := by
  unfold loopLe
  simp only [List.mem_map, List.mem_range]
  constructor
  · rintro ⟨k, hk, rfl⟩
    simp only [Int.ofNat_eq_coe]
    omega
  · rintro ⟨h0, h1⟩
    refine ⟨(a - lo).toNat, by omega, ?_⟩
    simp only [Int.ofNat_eq_coe]
    omega

theorem nodup_loopLt (n : Nat) : (loopLt n).Nodup :=
  (List.nodup_range n).map (fun a b h => by simpa using h)

theorem nodup_loopLe (lo hi : Int) : (loopLe lo hi).Nodup :=
  (List.nodup_range _).map (fun a b h => by simpa using h)

/-- A comprehension over a duplicate-free list is duplicate-free when every
element it produces determines the index it was produced from. -/
theorem nodup_flatMap_of_key {α β : Type} (key : β → α) (l : List α) (g : α → List β)
    (hl : l.Nodup) (hg : ∀ a ∈ l, (g a).Nodup) (hkey : ∀ a ∈ l, ∀ b ∈ g a, key b = a) :
    (l.flatMap g).Nodup := by
  rw [List.nodup_flatMap]
  refine ⟨hg, ?_⟩
  refine List.Pairwise.imp_of_mem ?_ hl
  intro a a' ha ha' hne
  show List.Disjoint (g a) (g a')
  intro b hb hb'
  exact hne ((hkey a ha b hb).symm.trans (hkey a' ha' b hb'))

theorem nodup_ite_singleton {β : Type} (c : Prop) [Decidable c] (b : β) :
    (if c then [] else [b]).Nodup := by
  split <;> simp

theorem mem_scoreCheatsPairs (costGrid : TwoDVector Int) (cheatPeriod : Int) (c : Cheat) :
    c ∈ scoreCheatsPairs costGrid cheatPeriod ↔
      (0 ≤ c.1.y ∧ c.1.y < costGrid.YDim) ∧ (0 ≤ c.1.x ∧ c.1.x < costGrid.XDim) ∧
      costGrid.get c.1.y c.1.x ≠ INT32_MAX ∧ 100 ≤ costGrid.get c.1.y c.1.x ∧
      (max 0 (isub c.1.y cheatPeriod) ≤ c.2.y ∧
        c.2.y ≤ min (wrap32 ((costGrid.YDim : Int) - 1)) (iadd c.1.y cheatPeriod)) ∧
      (max 0 (isub c.1.x (isub cheatPeriod (iabs (isub c.1.y c.2.y)))) ≤ c.2.x ∧
        c.2.x ≤ min (wrap32 ((costGrid.XDim : Int) - 1))
          (iadd c.1.x (isub cheatPeriod (iabs (isub c.1.y c.2.y))))) ∧
      costGrid.get c.2.y c.2.x ≠ INT32_MAX ∧
      iadd (iadd (costGrid.get c.2.y c.2.x)
        (iadd (iabs (isub c.2.x c.1.x)) (iabs (isub c.2.y c.1.y)))) 100
          ≤ costGrid.get c.1.y c.1.x := by
  obtain ⟨⟨ax, ay⟩, ⟨bx, by_⟩⟩ := c
  unfold scoreCheatsPairs
  simp only [List.mem_flatMap, mem_loopLt]
  constructor
  · rintro ⟨y, hy, x, hx, h⟩
    split at h
    · simp at h
    split at h
    · simp at h
    rename_i h1 h2
    simp only [List.mem_flatMap, mem_loopLe] at h
    obtain ⟨nextY, hnY, nextX, hnX, h⟩ := h
    split at h
    · simp at h
    split at h
    · simp at h
    rename_i h3 h4
    simp only [List.mem_singleton, Prod.mk.injEq, Coord.mk.injEq] at h
    obtain ⟨⟨rfl, rfl⟩, rfl, rfl⟩ := h
    exact ⟨hy, hx, h1, not_lt.mp h2, hnY, hnX, h3, not_lt.mp h4⟩
  · rintro ⟨hy, hx, h1, h2, hnY, hnX, h3, h4⟩
    refine ⟨ay, hy, ax, hx, ?_⟩
    rw [if_neg h1, if_neg (not_lt.mpr h2)]
    simp only [List.mem_flatMap, mem_loopLe]
    refine ⟨by_, hnY, bx, hnX, ?_⟩
    rw [if_neg h3, if_neg (not_lt.mpr h4)]
    simp

theorem nodup_scoreCheatsPairs (costGrid : TwoDVector Int) (cheatPeriod : Int) :
    (scoreCheatsPairs costGrid cheatPeriod).Nodup := by
  unfold scoreCheatsPairs
  refine nodup_flatMap_of_key (fun c => c.1.y) _ _ (nodup_loopLt _) (fun y _ => ?_) ?_
  · refine nodup_flatMap_of_key (fun c => c.1.x) _ _ (nodup_loopLt _) (fun x _ => ?_) ?_
    · split
      · exact List.nodup_nil
      split
      · exact List.nodup_nil
      refine nodup_flatMap_of_key (fun c => c.2.y) _ _ (nodup_loopLe _ _) (fun nextY _ => ?_) ?_
      · refine nodup_flatMap_of_key (fun c => c.2.x) _ _ (nodup_loopLe _ _)
          (fun nextX _ => ?_) ?_
        · split
          · exact List.nodup_nil
          exact nodup_ite_singleton _ _
        · intro nextX _ b hb
          split at hb
          · simp at hb
          split at hb
          · simp at hb
          simp only [List.mem_singleton] at hb
          rw [hb]
      · intro nextY _ b hb
        simp only [List.mem_flatMap] at hb
        obtain ⟨nextX, _, hb⟩ := hb
        split at hb
        · simp at hb
        split at hb
        · simp at hb
        simp only [List.mem_singleton] at hb
        rw [hb]
    · intro x _ b hb
      split at hb
      · simp at hb
      split at hb
      · simp at hb
      simp only [List.mem_flatMap] at hb
      obtain ⟨nextY, _, nextX, _, hb⟩ := hb
      split at hb
      · simp at hb
      split at hb
      · simp at hb
      simp only [List.mem_singleton] at hb
      rw [hb]
  · intro y _ b hb
    simp only [List.mem_flatMap] at hb
    obtain ⟨x, _, hb⟩ := hb
    split at hb
    · simp at hb
    split at hb
    · simp at hb
    simp only [List.mem_flatMap] at hb
    obtain ⟨nextY, _, nextX, _, hb⟩ := hb
    split at hb
    · simp at hb
    split at hb
    · simp at hb
    simp only [List.mem_singleton] at hb
    rw [hb]

/-! ## The specification's pair lists -/

theorem mem_coords {α : Type} (v : TwoDVector α) (a : Coord) :
    a ∈ v.coords ↔ (0 ≤ a.y ∧ a.y < v.YDim) ∧ (0 ≤ a.x ∧ a.x < v.XDim) := by
  obtain ⟨ax, ay⟩ := a
  unfold TwoDVector.coords
  simp only [List.mem_flatMap, List.mem_map, mem_loopLt, Coord.mk.injEq]
  constructor
  · rintro ⟨y, hy, x, hx, rfl, rfl⟩
    exact ⟨hy, hx⟩
  · rintro ⟨hy, hx⟩
    exact ⟨ay, hy, ax, hx, rfl, rfl⟩

theorem nodup_coords {α : Type} (v : TwoDVector α) : v.coords.Nodup := by
  unfold TwoDVector.coords
  refine nodup_flatMap_of_key (fun c => c.y) _ _ (nodup_loopLt _) (fun y _ => ?_) ?_
  · exact (nodup_loopLt _).map (fun a b h => by simpa using h)
  · intro y _ b hb
    simp only [List.mem_map] at hb
    obtain ⟨x, _, rfl⟩ := hb
    rfl

theorem mem_cheatsWithin (costGrid : TwoDVector Int) (radius : Int) (c : Cheat) :
    c ∈ cheatsWithin costGrid radius ↔
      c.1 ∈ costGrid.coords ∧ c.2 ∈ costGrid.coords ∧
      distance costGrid c.1 ≠ INT32_MAX ∧ distance costGrid c.2 ≠ INT32_MAX ∧
      ManhattanDistance c.1 c.2 ≤ radius := by
  obtain ⟨a, b⟩ := c
  unfold cheatsWithin
  simp only [List.mem_filter, List.pair_mem_product, Bool.and_eq_true, decide_eq_true_eq]
  tauto

theorem nodup_cheatsWithin (costGrid : TwoDVector Int) (radius : Int) :
    (cheatsWithin costGrid radius).Nodup :=
  ((nodup_coords costGrid).product (nodup_coords costGrid)).filter _

theorem iadd_eq {a b : Int} (h1 : -2147483648 ≤ a + b) (h2 : a + b < 2147483648) :
    iadd a b = a + b := wrap32_of_range h1 h2

theorem isub_eq {a b : Int} (h1 : -2147483648 ≤ a - b) (h2 : a - b < 2147483648) :
    isub a b = a - b := wrap32_of_range h1 h2

theorem iabs_eq {a : Int} (h : (a.natAbs : Int) < 2147483648) : iabs a = a.natAbs :=
  wrap32_of_range (by omega) h

/-- The clamped range `[max(0, a − r), min(n − 1, a + r)]` of the diamond
iteration holds exactly the in-grid indices within `r` of `a`. -/
theorem diamond_range_iff {a b r : Int} {n : Nat} (ha : 0 ≤ a ∧ a < n)
    (hr : (r.natAbs : Int) + n ≤ 2147483648) :
    (max 0 (isub a r) ≤ b ∧ b ≤ min (wrap32 ((n : Int) - 1)) (iadd a r)) ↔
      ((0 ≤ b ∧ b < n) ∧ ((a - b).natAbs : Int) ≤ r) := by
  rw [isub_eq (by omega) (by omega), iadd_eq (by omega) (by omega),
    wrap32_of_range (by omega) (by omega)]
  omega

/-- The value of `remainingSteps` for two in-grid rows. -/
theorem remainingSteps_eq {a b r : Int} {n : Nat} (ha : 0 ≤ a ∧ a < n) (hb : 0 ≤ b ∧ b < n)
    (hr : (r.natAbs : Int) + n ≤ 2147483648) :
    isub r (iabs (isub a b)) = r - ((a - b).natAbs : Int) := by
  have e1 : isub a b = a - b := isub_eq (by omega) (by omega)
  have e2 : iabs (a - b) = ((a - b).natAbs : Int) := iabs_eq (by omega)
  rw [e1, e2]
  exact isub_eq (by omega) (by omega)

/-- The value of `cheatCost` for two in-grid cells within Manhattan distance `r`. -/
theorem cheatCost_eq {ax ay bx by_ r : Int} {w h : Nat}
    (hax : 0 ≤ ax ∧ ax < w) (hbx : 0 ≤ bx ∧ bx < w) (hay : 0 ≤ ay ∧ ay < h)
    (hby : 0 ≤ by_ ∧ by_ < h) (hw : (w : Int) ≤ 2147483648) (hh : (h : Int) ≤ 2147483648)
    (hr : r < 2147483648)
    (hm : ((ax - bx).natAbs : Int) + ((ay - by_).natAbs : Int) ≤ r) :
    iadd (iabs (isub bx ax)) (iabs (isub by_ ay))
      = ((ax - bx).natAbs : Int) + ((ay - by_).natAbs : Int) := by
  have e1 : isub bx ax = bx - ax := isub_eq (by omega) (by omega)
  have e2 : isub by_ ay = by_ - ay := isub_eq (by omega) (by omega)
  have e3 : iabs (bx - ax) = ((bx - ax).natAbs : Int) := iabs_eq (by omega)
  have e4 : iabs (by_ - ay) = ((by_ - ay).natAbs : Int) := iabs_eq (by omega)
  rw [e1, e2, e3, e4, iadd_eq (by omega) (by omega)]
  omega

theorem remaining_bound {r n : Int} {w : Nat} (h0 : 0 ≤ n) (h1 : n ≤ r)
    (hx : (r.natAbs : Int) + w ≤ 2147483648) :
    (((r - n).natAbs : Int)) + w ≤ 2147483648 := by
  omega

theorem radius_lt {r a : Int} {w : Nat} (ha : 0 ≤ a ∧ a < w)
    (hx : (r.natAbs : Int) + w ≤ 2147483648) : r < 2147483648 := by
  omega

theorem dim_le {r : Int} {w : Nat} (hx : (r.natAbs : Int) + w ≤ 2147483648) :
    (w : Int) ≤ 2147483648 := by
  omega

/-- The value of `nextCost + 100` when neither addition overflows. -/
theorem costCompare_eq {cB m r : Int} (hB : -2147483648 ≤ cB) (hm0 : 0 ≤ m) (hm : m ≤ r)
    (hr : cB + r + 100 < 2147483648) : iadd (iadd cB m) 100 = cB + m + 100 := by
  have e1 : iadd cB m = cB + m := iadd_eq (by omega) (by omega)
  rw [e1]
  exact iadd_eq (by omega) (by omega)

/-- With no overflow in the radius or cost arithmetic, `++score` is reached at
exactly the cheats within the radius that save at least 100 and start from a
cell whose distance is at least 100. -/
theorem mem_scoreCheatsPairs_iff (costGrid : TwoDVector Int) (cheatPeriod : Int)
    (hx : (cheatPeriod.natAbs : Int) + costGrid.XDim ≤ 2147483648)
    (hy : (cheatPeriod.natAbs : Int) + costGrid.YDim ≤ 2147483648)
    (hcost : ∀ a ∈ costGrid.coords, distance costGrid a ≠ INT32_MAX →
      -2147483648 ≤ distance costGrid a ∧
        distance costGrid a + cheatPeriod + 100 < 2147483648)
    (c : Cheat) :
    c ∈ scoreCheatsPairs costGrid cheatPeriod ↔
      c ∈ cheatsWithin costGrid cheatPeriod ∧ 100 ≤ saving costGrid c.1 c.2 ∧
        100 ≤ distance costGrid c.1 := by
  obtain ⟨⟨ax, ay⟩, ⟨bx, by_⟩⟩ := c
  rw [mem_scoreCheatsPairs, mem_cheatsWithin, mem_coords, mem_coords]
  have hA := hcost ⟨ax, ay⟩
  have hB := hcost ⟨bx, by_⟩
  rw [mem_coords] at hA hB
  simp only [distance, saving, ManhattanDistance] at hA hB ⊢
  generalize costGrid.get ay ax = cA at hA ⊢
  generalize costGrid.get by_ bx = cB at hB ⊢
  generalize costGrid.XDim = W at hx hA hB ⊢
  generalize costGrid.YDim = H at hy hA hB ⊢
  have hW : (W : Int) ≤ 2147483648 := dim_le hx
  have hH : (H : Int) ≤ 2147483648 := dim_le hy
  have hn1 : (0 : Int) ≤ ((ay - by_).natAbs : Int) := Int.natCast_nonneg _
  have hn2 : (0 : Int) ≤ ((ax - bx).natAbs : Int) := Int.natCast_nonneg _
  constructor
  · rintro ⟨h1, h2, h3, h4, h5, h6, h7, h8⟩
    have hA2 := hA ⟨h1, h2⟩ h3
    have hR : cheatPeriod < 2147483648 := radius_lt h2 hx
    rw [diamond_range_iff h1 hy] at h5
    have hrem := remaining_bound hn1 h5.2 hx
    rw [remainingSteps_eq h1 h5.1 hy, diamond_range_iff h2 hrem] at h6
    have hB2 := hB ⟨h5.1, h6.1⟩ h7
    have hm : ((ax - bx).natAbs : Int) + ((ay - by_).natAbs : Int) ≤ cheatPeriod := by
      linarith [h6.2]
    have hm0 : (0 : Int) ≤ ((ax - bx).natAbs : Int) + ((ay - by_).natAbs : Int) := by linarith
    rw [cheatCost_eq h2 h6.1 h1 h5.1 hW hH hR hm, costCompare_eq hB2.1 hm0 hm hB2.2] at h8
    refine ⟨⟨⟨h1, h2⟩, ⟨h5.1, h6.1⟩, h3, h7, hm⟩, ?_, h4⟩
    linarith
  · rintro ⟨⟨h1, h2, h3, h4, hm⟩, h6, h6b⟩
    have hA2 := hA h1 h3
    have hB2 := hB h2 h4
    have hR : cheatPeriod < 2147483648 := radius_lt h1.2 hx
    have hm0 : (0 : Int) ≤ ((ax - bx).natAbs : Int) + ((ay - by_).natAbs : Int) := by linarith
    have hrem := remaining_bound hn1 (by linarith) hx
    rw [diamond_range_iff h1.1 hy, remainingSteps_eq h1.1 h2.1 hy,
      diamond_range_iff h1.2 hrem,
      cheatCost_eq h1.2 h2.2 h1.1 h2.1 hW hH hR hm, costCompare_eq hB2.1 hm0 hm hB2.2]
    refine ⟨h1.1, h1.2, h3, ?_, ⟨h2.1, ?_⟩, ⟨h2.2, ?_⟩, h4, ?_⟩ <;> linarith

/-- A fold of `++score` over a duplicate-free hit list whose members are
characterised by `p` counts the members of any duplicate-free list that holds
exactly the elements satisfying `p`. -/
theorem length_eq_of_mem_iff {β : Type} {l₁ l₂ : List β} (h₁ : l₁.Nodup) (h₂ : l₂.Nodup)
    (h : ∀ b, b ∈ l₁ ↔ b ∈ l₂) : l₁.length = l₂.length :=
  ((List.perm_ext_iff_of_nodup h₁ h₂).mpr h).length_eq

theorem ScoreCheatsHits_length (costGrid : TwoDVector Int) (cheatPeriod : Int)
    (hx : (cheatPeriod.natAbs : Int) + costGrid.XDim ≤ 2147483648)
    (hy : (cheatPeriod.natAbs : Int) + costGrid.YDim ≤ 2147483648)
    (hcost : ∀ a ∈ costGrid.coords, distance costGrid a ≠ INT32_MAX →
      0 ≤ distance costGrid a ∧ distance costGrid a + cheatPeriod + 100 < 2147483648) :
    (ScoreCheatsHits costGrid cheatPeriod).length
      = cheatCountAtLeast costGrid cheatPeriod 100 := by
  rw [ScoreCheatsHits_eq]
  unfold cheatCountAtLeast
  refine length_eq_of_mem_iff (nodup_scoreCheatsPairs _ _)
    ((nodup_cheatsWithin _ _).filter _) (fun c => ?_)
  rw [mem_scoreCheatsPairs_iff costGrid cheatPeriod hx hy
    (fun a ha hd => ⟨by linarith [(hcost a ha hd).1], (hcost a ha hd).2⟩)]
  simp only [List.mem_filter, decide_eq_true_eq]
  constructor
  · rintro ⟨h1, h2, _⟩
    exact ⟨h1, h2⟩
  · rintro ⟨h1, h2⟩
    refine ⟨h1, h2, ?_⟩
    rw [mem_cheatsWithin] at h1
    have hB := (hcost c.2 h1.2.1 h1.2.2.2.1).1
    have hm : 0 ≤ ManhattanDistance c.1 c.2 := by unfold ManhattanDistance; omega
    unfold saving at h2
    linarith

theorem scoreCheatsPairs_subset (costGrid : TwoDVector Int) (r1 r2 : Int) (h12 : r1 ≤ r2)
    (hx1 : (r1.natAbs : Int) + costGrid.XDim ≤ 2147483648)
    (hy1 : (r1.natAbs : Int) + costGrid.YDim ≤ 2147483648)
    (hx2 : (r2.natAbs : Int) + costGrid.XDim ≤ 2147483648)
    (hy2 : (r2.natAbs : Int) + costGrid.YDim ≤ 2147483648) :
    scoreCheatsPairs costGrid r1 ⊆ scoreCheatsPairs costGrid r2 := by
  intro c hc
  rw [mem_scoreCheatsPairs] at hc ⊢
  obtain ⟨h1, h2, h3, h4, h5, h6, h7, h8⟩ := hc
  have hn1 : (0 : Int) ≤ ((c.1.y - c.2.y).natAbs : Int) := Int.natCast_nonneg _
  have hn2 : (0 : Int) ≤ ((c.1.x - c.2.x).natAbs : Int) := Int.natCast_nonneg _
  rw [diamond_range_iff h1 hy1] at h5
  rw [remainingSteps_eq h1 h5.1 hy1, diamond_range_iff h2 (remaining_bound hn1 h5.2 hx1)] at h6
  have h5b : ((c.1.y - c.2.y).natAbs : Int) ≤ r2 := le_trans h5.2 h12
  rw [diamond_range_iff h1 hy2, remainingSteps_eq h1 h5.1 hy2,
    diamond_range_iff h2 (remaining_bound hn1 h5b hx2)]
  exact ⟨h1, h2, h3, h4, ⟨h5.1, h5b⟩, ⟨h6.1, by linarith [h6.2]⟩, h7, h8⟩

/-! ## The hit list of `CountCheats` -/

theorem nodup_flatMap_of_inj {α β : Type} (l : List α) (g : α → List β)
    (hl : l.Nodup) (hg : ∀ a ∈ l, (g a).Nodup)
    (hinj : ∀ a ∈ l, ∀ a' ∈ l, ∀ b, b ∈ g a → b ∈ g a' → a = a') :
    (l.flatMap g).Nodup := by
  rw [List.nodup_flatMap]
  refine ⟨hg, ?_⟩
  refine List.Pairwise.imp_of_mem ?_ hl
  intro a a' ha ha' hne
  show List.Disjoint (g a) (g a')
  intro b hb hb'
  exact hne (hinj a ha a' ha' b hb hb')

theorem sublist_flatMap {α β : Type} (l : List α) (g g' : α → List β)
    (h : ∀ a ∈ l, (g a).Sublist (g' a)) : (l.flatMap g).Sublist (l.flatMap g') := by
  induction l with
  | nil => simp
  | cons a l ih =>
    simp only [List.flatMap_cons]
    exact (h a (List.mem_cons_self _ _)).append
      (ih (fun b hb => h b (List.mem_cons_of_mem _ hb)))

theorem iadd_step_inj {a s t : Int} (hs : -20 ≤ s ∧ s ≤ 20) (ht : -20 ≤ t ∧ t ≤ 20)
    (h : iadd a s = iadd a t) : s = t := by
  unfold iadd wrap32 at h
  omega

theorem nodup_countCheatsCandidates (costGrid : TwoDVector Int) :
    (countCheatsCandidates costGrid).Nodup := by
  unfold countCheatsCandidates
  refine nodup_flatMap_of_key (fun c => c.1.y) _ _ (nodup_loopLt _) (fun y _ => ?_) ?_
  · refine nodup_flatMap_of_key (fun c => c.1.x) _ _ (nodup_loopLt _) (fun x _ => ?_) ?_
    · refine nodup_flatMap_of_inj _ _ (nodup_loopLe _ _) (fun yStep hy => ?_) ?_
      · refine (nodup_loopLe _ _).map_on (fun s hs t ht h => ?_)
        simp only [Prod.mk.injEq, Coord.mk.injEq, true_and, and_true] at h
        exact iadd_step_inj (mem_loopLe.mp hs) (mem_loopLe.mp ht) h
      · intro s hs t ht b hb hb'
        simp only [List.mem_map] at hb hb'
        obtain ⟨u, _, rfl⟩ := hb
        obtain ⟨v, _, h⟩ := hb'
        simp only [Prod.mk.injEq, Coord.mk.injEq, true_and] at h
        exact iadd_step_inj (mem_loopLe.mp hs) (mem_loopLe.mp ht) h.2.symm
    · intro x _ b hb
      simp only [List.mem_flatMap, List.mem_map] at hb
      obtain ⟨_, _, _, _, rfl⟩ := hb
      rfl
  · intro y _ b hb
    simp only [List.mem_flatMap, List.mem_map] at hb
    obtain ⟨_, _, _, _, _, _, rfl⟩ := hb
    rfl

theorem countCheatsPairs_sublist (costGrid : TwoDVector Int) :
    ((countCheatsPairs costGrid).map Prod.fst).Sublist (countCheatsCandidates costGrid) := by
  unfold countCheatsPairs countCheatsCandidates
  simp only [List.map_flatMap]
  refine sublist_flatMap _ _ _ (fun y _ => ?_)
  refine sublist_flatMap _ _ _ (fun x _ => ?_)
  split
  · simp
  simp only [List.map_flatMap]
  refine sublist_flatMap _ _ _ (fun yStep _ => ?_)
  rw [List.map_eq_flatMap]
  refine sublist_flatMap _ _ _ (fun xStep _ => ?_)
  split
  · simp
  split
  · simp
  split
  · simp
  split <;> simp

/-- The four loops of `CountCheats` reach line 191 at most once for each
ordered pair of cells. -/
theorem nodup_countCheatsPairs (costGrid : TwoDVector Int) :
    ((countCheatsPairs costGrid).map Prod.fst).Nodup :=
  (countCheatsPairs_sublist costGrid).nodup (nodup_countCheatsCandidates costGrid)

theorem mem_countCheatsPairs (costGrid : TwoDVector Int) (h : Cheat × Int) :
    h ∈ countCheatsPairs costGrid ↔
      ∃ y x yStep xStep : Int, (0 ≤ y ∧ y < costGrid.YDim) ∧ (0 ≤ x ∧ x < costGrid.XDim) ∧
        costGrid.get y x ≠ INT32_MAX ∧ (-20 ≤ yStep ∧ yStep ≤ 20) ∧
        (-20 ≤ xStep ∧ xStep ≤ 20) ∧ iadd (iabs xStep) (iabs yStep) ≤ 20 ∧
        costGrid.IsInBounds (iadd x xStep) (iadd y yStep) = true ∧
        costGrid.get (iadd y yStep) (iadd x xStep) ≠ INT32_MAX ∧
        iadd (costGrid.get (iadd y yStep) (iadd x xStep)) (iadd (iabs xStep) (iabs yStep))
          < costGrid.get y x ∧
        h = (((⟨x, y⟩, ⟨iadd x xStep, iadd y yStep⟩) : Cheat),
          isub (costGrid.get y x) (iadd (costGrid.get (iadd y yStep) (iadd x xStep))
            (iadd (iabs xStep) (iabs yStep)))) := by
  unfold countCheatsPairs
  simp only [List.mem_flatMap, mem_loopLt, mem_loopLe, List.mem_ite_nil_left,
    List.mem_singleton, gt_iff_lt, ge_iff_le, not_lt, not_le, Bool.not_eq_true',
    Bool.not_eq_false]
  constructor
  · rintro ⟨y, hy, x, hx, h1, yStep, hys, xStep, hxs, h2, h3, h4, h5, h6⟩
    exact ⟨y, x, yStep, xStep, hy, hx, h1, hys, hxs, h2, h3, h4, h5, h6⟩
  · rintro ⟨y, x, yStep, xStep, hy, hx, h1, hys, hxs, h2, h3, h4, h5, h6⟩
    exact ⟨y, hy, x, hx, h1, yStep, hys, xStep, hxs, h2, h3, h4, h5, h6⟩

theorem iadd_step_eq {a s : Int} {n : Nat} (ha : 0 ≤ a ∧ a < n)
    (hn : (20 : Int) + n ≤ 2147483648) (hs : -20 ≤ s ∧ s ≤ 20) : iadd a s = a + s :=
  iadd_eq (by omega) (by omega)

theorem cheatCost_step_eq {s t : Int} (hs : -20 ≤ s ∧ s ≤ 20) (ht : -20 ≤ t ∧ t ≤ 20) :
    iadd (iabs s) (iabs t) = (s.natAbs : Int) + (t.natAbs : Int) := by
  have e1 : iabs s = (s.natAbs : Int) := iabs_eq (by omega)
  have e2 : iabs t = (t.natAbs : Int) := iabs_eq (by omega)
  rw [e1, e2]
  exact iadd_eq (by omega) (by omega)

theorem natAbs_step (a s : Int) : (a - (a + s)).natAbs = s.natAbs := by omega

theorem step_range {a b : Int} (h : ((a - b).natAbs : Int) ≤ 20) :
    -20 ≤ b - a ∧ b - a ≤ 20 := by omega

theorem natAbs_step_sub (a b : Int) : (b - a).natAbs = (a - b).natAbs := by omega

theorem isInBounds_iff {α : Type} (v : TwoDVector α) (x y : Int) :
    v.IsInBounds x y = true ↔ (0 ≤ y ∧ y < v.YDim) ∧ (0 ≤ x ∧ x < v.XDim) := by
  unfold TwoDVector.IsInBounds
  simp only [Bool.and_eq_true, decide_eq_true_eq]
  tauto

/-- With no overflow in the coordinate or cost arithmetic, line 191 of
`CountCheats` is reached at exactly the cheats within radius 20 whose saving is
positive, and the histogram key computed there is the saving. -/
theorem mem_countCheatsPairs_iff (costGrid : TwoDVector Int)
    (hx : (20 : Int) + costGrid.XDim ≤ 2147483648)
    (hy : (20 : Int) + costGrid.YDim ≤ 2147483648)
    (hcost : ∀ a ∈ costGrid.coords, distance costGrid a ≠ INT32_MAX →
      -2147483648 ≤ distance costGrid a ∧ distance costGrid a + 20 < 2147483648)
    (hdiff : ∀ a ∈ costGrid.coords, ∀ b ∈ costGrid.coords,
      distance costGrid a ≠ INT32_MAX → distance costGrid b ≠ INT32_MAX →
      distance costGrid a - distance costGrid b < 2147483648)
    (h : Cheat × Int) :
    h ∈ countCheatsPairs costGrid ↔
      h.1 ∈ cheatsWithin costGrid 20 ∧ 0 < saving costGrid h.1.1 h.1.2 ∧
        h.2 = saving costGrid h.1.1 h.1.2 := by
  rw [mem_countCheatsPairs, mem_cheatsWithin, mem_coords, mem_coords]
  constructor
  · rintro ⟨y, x, yStep, xStep, hy1, hx1, h1, hys, hxs, h2, h3, h4, h5, rfl⟩
    have ey := iadd_step_eq hy1 hy hys
    have ex := iadd_step_eq hx1 hx hxs
    have ec := cheatCost_step_eq hxs hys
    simp only [ey, ex, ec] at h2 h3 h4 h5 ⊢
    rw [isInBounds_iff] at h3
    have hA := hcost ⟨x, y⟩ ((mem_coords _ _).mpr ⟨hy1, hx1⟩) h1
    have hB := hcost ⟨x + xStep, y + yStep⟩ ((mem_coords _ _).mpr h3) h4
    have hD := hdiff ⟨x, y⟩ ((mem_coords _ _).mpr ⟨hy1, hx1⟩)
      ⟨x + xStep, y + yStep⟩ ((mem_coords _ _).mpr h3) h1 h4
    simp only [distance, saving, ManhattanDistance, natAbs_step] at hA hB hD ⊢
    have hn1 : (0 : Int) ≤ (xStep.natAbs : Int) := Int.natCast_nonneg _
    have hn2 : (0 : Int) ≤ (yStep.natAbs : Int) := Int.natCast_nonneg _
    have e5 : iadd (costGrid.get (y + yStep) (x + xStep)) (↑xStep.natAbs + ↑yStep.natAbs)
        = costGrid.get (y + yStep) (x + xStep) + (↑xStep.natAbs + ↑yStep.natAbs) :=
      iadd_eq (by linarith) (by linarith)
    rw [e5] at h5 ⊢
    have e6 : isub (costGrid.get y x)
        (costGrid.get (y + yStep) (x + xStep) + (↑xStep.natAbs + ↑yStep.natAbs))
        = costGrid.get y x
          - (costGrid.get (y + yStep) (x + xStep) + (↑xStep.natAbs + ↑yStep.natAbs)) :=
      isub_eq (by linarith) (by linarith)
    rw [e6]
    refine ⟨⟨⟨hy1, hx1⟩, h3, h1, h4, h2⟩, by linarith, by ring⟩
  · obtain ⟨⟨⟨ax, ay⟩, ⟨bx, by_⟩⟩, key⟩ := h
    rintro ⟨⟨hA1, hB1, h1, h4, hm⟩, hpos, hkey⟩
    simp only at hA1 hB1 h1 h4 hm hpos hkey
    have hA := hcost ⟨ax, ay⟩ ((mem_coords _ _).mpr hA1) h1
    have hB := hcost ⟨bx, by_⟩ ((mem_coords _ _).mpr hB1) h4
    have hD := hdiff ⟨ax, ay⟩ ((mem_coords _ _).mpr hA1)
      ⟨bx, by_⟩ ((mem_coords _ _).mpr hB1) h1 h4
    simp only [distance, saving, ManhattanDistance] at hA hB hD h1 h4 hm hpos hkey
    have hn1 : (0 : Int) ≤ ((ax - bx).natAbs : Int) := Int.natCast_nonneg _
    have hn2 : (0 : Int) ≤ ((ay - by_).natAbs : Int) := Int.natCast_nonneg _
    have hxs : -20 ≤ bx - ax ∧ bx - ax ≤ 20 := step_range (by linarith)
    have hys : -20 ≤ by_ - ay ∧ by_ - ay ≤ 20 := step_range (by linarith)
    have ey := iadd_step_eq hA1.1 hy hys
    have ex := iadd_step_eq hA1.2 hx hxs
    have ec := cheatCost_step_eq hxs hys
    rw [natAbs_step_sub, natAbs_step_sub ay] at ec
    have ey2 : ay + (by_ - ay) = by_ := by ring
    have ex2 : ax + (bx - ax) = bx := by ring
    rw [ey2] at ey
    rw [ex2] at ex
    refine ⟨ay, ax, by_ - ay, bx - ax, hA1.1, hA1.2, h1, hys, hxs, ?_⟩
    rw [ey, ex, ec, isInBounds_iff]
    have e5 : iadd (costGrid.get by_ bx) (↑(ax - bx).natAbs + ↑(ay - by_).natAbs)
        = costGrid.get by_ bx + (↑(ax - bx).natAbs + ↑(ay - by_).natAbs) :=
      iadd_eq (by linarith) (by linarith)
    rw [e5]
    have e6 : isub (costGrid.get ay ax)
        (costGrid.get by_ bx + (↑(ax - bx).natAbs + ↑(ay - by_).natAbs))
        = costGrid.get ay ax
          - (costGrid.get by_ bx + (↑(ax - bx).natAbs + ↑(ay - by_).natAbs)) :=
      isub_eq (by linarith) (by linarith)
    rw [e6]
    refine ⟨hm, hB1, h4, by linarith, ?_⟩
    rw [hkey]
    refine Prod.ext rfl ?_
    show _ - _ - _ = _ - _
    ring

/-! ## The seen-set and the histogram -/

/-- On a hit list without repeated pairs the seen-set never rejects a pair, so
the histogram is the result of incrementing the entry of each saving in turn. -/
theorem foldl_recordCheat (hits : List (Cheat × Int)) (st : List Cheat × List (Int × Int))
    (hnd : (hits.map Prod.fst).Nodup) (hfresh : ∀ h ∈ hits, h.1 ∉ st.1) :
    (hits.foldl recordCheat st).2 = (hits.map Prod.snd).foldl mapIncrement st.2 := by
  induction hits generalizing st with
  | nil => rfl
  | cons h hits ih =>
    rw [List.map_cons, List.nodup_cons] at hnd
    have hh : h.1 ∉ st.1 := hfresh h (List.mem_cons_self _ _)
    have hstep : recordCheat st h = (h.1 :: st.1, mapIncrement st.2 h.2) := by
      unfold recordCheat
      rw [if_neg hh]
    rw [List.foldl_cons, hstep, ih _ hnd.2]
    · rfl
    · intro h' hh' hmem
      rcases List.mem_cons.mp hmem with heq | hmem
      · exact hnd.1 (heq ▸ List.mem_map_of_mem Prod.fst hh')
      · exact hfresh h' (List.mem_cons_of_mem _ hh') hmem

theorem mapIncrement_key (m : List (Int × Int)) (key : Int) :
    ∀ e ∈ mapIncrement m key, e.1 = key ∨ ∃ e' ∈ m, e'.1 = e.1 := by
  induction m with
  | nil =>
    intro e he
    simp only [mapIncrement, List.mem_singleton] at he
    exact Or.inl (by rw [he])
  | cons kv rest ih =>
    obtain ⟨k, v⟩ := kv
    intro e he
    unfold mapIncrement at he
    split at he
    · rcases List.mem_cons.mp he with h | h
      · exact Or.inl (by rw [h])
      · exact Or.inr ⟨e, h, rfl⟩
    split at he
    · rcases List.mem_cons.mp he with h | h
      · exact Or.inr ⟨(k, v), List.mem_cons_self _ _, by rw [h]⟩
      · exact Or.inr ⟨e, List.mem_cons_of_mem _ h, rfl⟩
    · rcases List.mem_cons.mp he with h | h
      · exact Or.inr ⟨(k, v), List.mem_cons_self _ _, by rw [h]⟩
      · rcases ih e h with h' | ⟨e', he', h'⟩
        · exact Or.inl h'
        · exact Or.inr ⟨e', List.mem_cons_of_mem _ he', h'⟩

/-- The statement `++cheats[key]` keeps the map's entries in key order. -/
theorem mapIncrement_isStdMap (m : List (Int × Int)) (key : Int) (hm : IsStdMap m) :
    IsStdMap (mapIncrement m key) := by
  unfold IsStdMap at hm ⊢
  induction m with
  | nil => simp [mapIncrement]
  | cons kv rest ih =>
    obtain ⟨k, v⟩ := kv
    rw [List.pairwise_cons] at hm
    unfold mapIncrement
    split
    · rename_i hlt
      refine List.pairwise_cons.mpr ⟨?_, List.pairwise_cons.mpr hm⟩
      intro e he
      rcases List.mem_cons.mp he with h | h
      · rw [h]; exact hlt
      · exact lt_trans hlt (hm.1 e h)
    split
    · exact List.pairwise_cons.mpr hm
    · rename_i h1 h2
      refine List.pairwise_cons.mpr ⟨?_, ih hm.2⟩
      intro e he
      rcases mapIncrement_key rest key e he with h | ⟨e', he', h⟩
      · rw [h]
        show k < key
        omega
      · rw [← h]
        exact hm.1 e' he'

theorem foldl_mapIncrement_isStdMap (keys : List Int) (m : List (Int × Int))
    (hm : IsStdMap m) : IsStdMap (keys.foldl mapIncrement m) := by
  induction keys generalizing m with
  | nil => exact hm
  | cons k keys ih => exact ih _ (mapIncrement_isStdMap m k hm)

theorem wrap32_add_congr {b b' : Int} (a : Int) (h : wrap32 b = wrap32 b') :
    wrap32 (a + b) = wrap32 (a + b') := by
  unfold wrap32 at h ⊢
  omega

theorem sumAtLeast100_cons (k v : Int) (rest : List (Int × Int)) :
    sumAtLeast100 ((k, v) :: rest)
      = (if 100 ≤ k then v else 0) + sumAtLeast100 rest := by
  unfold sumAtLeast100
  by_cases h : 100 ≤ k
  · simp [List.filter_cons, h]
  · simp [List.filter_cons, h]

/-- The statement `++cheats[key]` adds one to the total stored under keys that
are at least 100 exactly when `key` is at least 100 (modulo 2^32). -/
theorem sumAtLeast100_mapIncrement (m : List (Int × Int)) (key : Int) :
    wrap32 (sumAtLeast100 (mapIncrement m key))
      = wrap32 (sumAtLeast100 m + (if 100 ≤ key then 1 else 0)) := by
  induction m with
  | nil =>
    unfold mapIncrement
    rw [sumAtLeast100_cons]
    simp only [sumAtLeast100, List.filter_nil, List.map_nil, List.sum_nil, iadd]
    split <;> simp [wrap32]
  | cons kv rest ih =>
    obtain ⟨k, v⟩ := kv
    unfold mapIncrement
    split
    · rw [sumAtLeast100_cons, sumAtLeast100_cons]
      have : iadd 0 1 = 1 := by decide
      rw [this]
      split <;> [congr 1; congr 1] <;> ring
    split
    · rename_i h1 h2
      subst h2
      rw [sumAtLeast100_cons, sumAtLeast100_cons]
      split
      · unfold iadd wrap32
        omega
      · simp
    · rename_i h1 h2
      rw [sumAtLeast100_cons, sumAtLeast100_cons, wrap32_add_congr _ ih]
      congr 1
      ring

theorem sumAtLeast100_foldl_mapIncrement (keys : List Int) (m : List (Int × Int)) :
    wrap32 (sumAtLeast100 (keys.foldl mapIncrement m))
      = wrap32 (sumAtLeast100 m + (keys.filter (fun k => decide (100 ≤ k))).length) := by
  induction keys generalizing m with
  | nil => simp
  | cons k keys ih =>
    rw [List.foldl_cons, ih, add_comm, wrap32_add_congr _ (sumAtLeast100_mapIncrement m k)]
    congr 1
    by_cases h : 100 ≤ k
    · simp only [h, if_true, List.filter_cons, decide_True, List.length_cons]
      push_cast
      ring
    · simp only [h, if_false, List.filter_cons, decide_False, Bool.false_eq_true]
      ring

/-! ## `Score` -/

theorem foldl_total (l : List (Int × Int)) (s : Int) (h : ∀ e ∈ l, 100 ≤ e.1) :
    l.foldl (fun total e => if e.1 < 100 then total else iadd total e.2) (wrap32 s)
      = wrap32 (s + (l.map (fun e => e.2)).sum) := by
  induction l generalizing s with
  | nil => simp
  | cons e l ih =>
    have he : ¬ e.1 < 100 := not_lt.mpr (h e (List.mem_cons_self _ _))
    rw [List.foldl_cons, if_neg he]
    show List.foldl _ (wrap32 (wrap32 s + e.2)) l = _
    rw [wrap32_wrap32_add, ih _ (fun e' he' => h e' (List.mem_cons_of_mem _ he'))]
    congr 1
    simp only [List.map_cons, List.sum_cons]
    ring

/-- On a well-formed map `Score` is the sum of the counts stored under keys that
are at least 100, reduced to the `int` range. -/
theorem Score_eq_wrap32_sum (cheats : List (Int × Int)) (hmap : IsStdMap cheats) :
    Score cheats = wrap32 (sumAtLeast100 cheats) := by
  unfold IsStdMap at hmap
  induction cheats with
  | nil => decide
  | cons kv rest ih =>
    obtain ⟨k, v⟩ := kv
    rw [List.pairwise_cons] at hmap
    by_cases hk : k < 100
    · have h1 : Score ((k, v) :: rest) = Score rest := by
        unfold Score
        rw [List.dropWhile_cons]
        simp [hk]
      rw [h1, ih hmap.2, sumAtLeast100_cons, if_neg (by omega), zero_add]
    · have hall : ∀ e ∈ (k, v) :: rest, 100 ≤ e.1 := by
        intro e he
        rcases List.mem_cons.mp he with h | h
        · rw [h]; show 100 ≤ k; omega
        · have := hmap.1 e h
          show 100 ≤ e.1
          have hk' : k < e.1 := this
          omega
      have h1 : Score ((k, v) :: rest)
          = ((k, v) :: rest).foldl
              (fun total e => if e.1 < 100 then total else iadd total e.2) (wrap32 0) := by
        unfold Score
        rw [List.dropWhile_cons]
        simp [hk]
        rfl
      rw [h1, foldl_total _ _ hall, zero_add]
      congr 1
      unfold sumAtLeast100
      rw [List.filter_eq_self.mpr (fun e he => by simpa using hall e he)]

/-! ## The histogram of `CountCheats` -/

theorem CountCheats_eq_foldl (costGrid : TwoDVector Int) :
    CountCheats costGrid
      = ((countCheatsPairs costGrid).map Prod.snd).foldl mapIncrement [] := by
  rw [CountCheats_eq]
  exact foldl_recordCheat _ _ (nodup_countCheatsPairs costGrid)
    (fun _ _ => List.not_mem_nil _)

theorem CountCheats_isStdMap (costGrid : TwoDVector Int) : IsStdMap (CountCheats costGrid) := by
  rw [CountCheats_eq_foldl]
  exact foldl_mapIncrement_isStdMap _ _ List.Pairwise.nil

theorem length_filter_snd {β : Type} (l : List (β × Int)) (p : Int → Bool) :
    ((l.map Prod.snd).filter p).length = ((l.filter (fun h => p h.2)).map Prod.fst).length := by
  rw [List.length_map]
  induction l with
  | nil => rfl
  | cons h l ih =>
    simp only [List.map_cons, List.filter_cons]
    split <;> simp [ih]

theorem nodup_filter_countCheatsPairs (costGrid : TwoDVector Int) (p : Cheat × Int → Bool) :
    (((countCheatsPairs costGrid).filter p).map Prod.fst).Nodup :=
  (List.Sublist.map Prod.fst (List.filter_sublist _)).nodup (nodup_countCheatsPairs costGrid)

/-- `Score(CountCheats(costGrid))` is the number of pairs that reach line 191
with a key of at least 100, reduced to the `int` range. -/
theorem Score_CountCheats (costGrid : TwoDVector Int) :
    Score (CountCheats costGrid)
      = wrap32 ((((countCheatsPairs costGrid).filter
          (fun h => decide (100 ≤ h.2))).map Prod.fst).length : Int) := by
  rw [Score_eq_wrap32_sum _ (CountCheats_isStdMap costGrid), CountCheats_eq_foldl,
    sumAtLeast100_foldl_mapIncrement, length_filter_snd]
  simp [sumAtLeast100]

/-- The entries of the map after `++cheats[key]`, for a map in key order. -/
theorem mem_mapIncrement (m : List (Int × Int)) (key : Int) (hm : IsStdMap m) (k v : Int) :
    (k, v) ∈ mapIncrement m key ↔
      (k ≠ key ∧ (k, v) ∈ m) ∨
      (k = key ∧ ((∃ v0, (key, v0) ∈ m ∧ v = iadd v0 1) ∨
        ((∀ v0, (key, v0) ∉ m) ∧ v = iadd 0 1))) := by
  unfold IsStdMap at hm
  induction m with
  | nil =>
    simp only [mapIncrement, List.mem_singleton, Prod.mk.injEq, List.not_mem_nil, and_false,
      false_and, exists_false, not_false_eq_true, implies_true, true_and, false_or]
  | cons kv rest ih =>
    obtain ⟨k0, v0⟩ := kv
    rw [List.pairwise_cons] at hm
    have hrest : ∀ k' v', (k', v') ∈ rest → k0 < k' := fun k' v' h => hm.1 (k', v') h
    unfold mapIncrement
    split
    · rename_i hlt
      simp only [List.mem_cons, Prod.mk.injEq]
      constructor
      · rintro (⟨rfl, rfl⟩ | ⟨rfl, rfl⟩ | h)
        · refine Or.inr ⟨rfl, Or.inr ⟨?_, rfl⟩⟩
          rintro v1 (⟨h1, _⟩ | h1)
          · omega
          · have := hrest _ _ h1; omega
        · exact Or.inl ⟨by omega, Or.inl ⟨rfl, rfl⟩⟩
        · exact Or.inl ⟨by have := hrest _ _ h; omega, Or.inr h⟩
      · rintro (⟨h1, h2⟩ | ⟨rfl, ⟨v1, (⟨h1, _⟩ | h1), _⟩ | ⟨_, rfl⟩⟩)
        · exact Or.inr h2
        · omega
        · have := hrest _ _ h1; omega
        · exact Or.inl ⟨rfl, rfl⟩
    split
    · rename_i h1 h2
      simp only [List.mem_cons, Prod.mk.injEq]
      constructor
      · rintro (⟨hk, hv⟩ | h)
        · exact Or.inr ⟨hk.trans h2.symm, Or.inl ⟨v0, Or.inl ⟨h2, rfl⟩, hv⟩⟩
        · exact Or.inl ⟨by have := hrest _ _ h; omega, Or.inr h⟩
      · rintro (⟨h3, (⟨h4, _⟩ | h4)⟩ | ⟨h3, ⟨v1, (⟨_, h5⟩ | h4), h6⟩ | ⟨h4, _⟩⟩)
        · exact absurd (h4.trans h2.symm) h3
        · exact Or.inr h4
        · exact Or.inl ⟨h3.trans h2, by rw [h6, h5]⟩
        · have := hrest _ _ h4; omega
        · exact absurd (Or.inl ⟨h2, rfl⟩) (h4 v0)
    · rename_i h1 h2
      have hne : key ≠ k0 := h2
      simp only [List.mem_cons, Prod.mk.injEq, ih hm.2]
      constructor
      · rintro (⟨rfl, rfl⟩ | ⟨h3, h4⟩ | ⟨rfl, ⟨v1, h3, rfl⟩ | ⟨h3, rfl⟩⟩)
        · exact Or.inl ⟨fun h => hne h.symm, Or.inl ⟨rfl, rfl⟩⟩
        · exact Or.inl ⟨h3, Or.inr h4⟩
        · exact Or.inr ⟨rfl, Or.inl ⟨v1, Or.inr h3, rfl⟩⟩
        · refine Or.inr ⟨rfl, Or.inr ⟨?_, rfl⟩⟩
          rintro v1 (⟨h4, _⟩ | h4)
          · exact hne h4
          · exact h3 v1 h4
      · rintro (⟨h3, (⟨rfl, rfl⟩ | h4)⟩ | ⟨rfl, ⟨v1, (⟨h3, _⟩ | h3), rfl⟩ | ⟨h3, rfl⟩⟩)
        · exact Or.inl ⟨rfl, rfl⟩
        · exact Or.inr (Or.inl ⟨h3, h4⟩)
        · exact absurd h3 hne
        · exact Or.inr (Or.inr ⟨rfl, Or.inl ⟨v1, h3, rfl⟩⟩)
        · exact Or.inr (Or.inr ⟨rfl, Or.inr ⟨fun v1 h4 => h3 v1 (Or.inr h4), rfl⟩⟩)

/-- After incrementing the entries of the keys `done` and then of `keys`, the
map holds one entry for each key that occurred, with the number of its
occurrences reduced to the `int` range. -/
theorem mem_foldl_mapIncrement (keys done : List Int) (m : List (Int × Int))
    (hm : IsStdMap m)
    (hinv : ∀ k v, (k, v) ∈ m ↔ 0 < done.count k ∧ v = wrap32 (done.count k)) (k v : Int) :
    (k, v) ∈ keys.foldl mapIncrement m ↔
      0 < (done ++ keys).count k ∧ v = wrap32 ((done ++ keys).count k) := by
  induction keys generalizing m done with
  | nil => simpa using hinv k v
  | cons key keys ih =>
    rw [List.foldl_cons]
    have happ : done ++ key :: keys = (done ++ [key]) ++ keys := by simp
    rw [happ]
    refine ih (done ++ [key]) (mapIncrement m key) (mapIncrement_isStdMap m key hm) ?_
    intro k v
    rw [mem_mapIncrement m key hm, List.count_append]
    by_cases hk : k = key
    · subst hk
      simp only [ne_eq, not_true_eq_false, false_and, true_and, false_or,
        List.count_singleton_self]
      constructor
      · rintro (⟨v0, h1, rfl⟩ | ⟨h1, rfl⟩)
        · obtain ⟨_, hv0⟩ := (hinv k v0).mp h1
          refine ⟨by omega, ?_⟩
          rw [hv0]
          show wrap32 (wrap32 _ + 1) = _
          rw [wrap32_wrap32_add]
          push_cast
          rfl
        · have h0 : done.count k = 0 := by
            by_contra hne
            exact h1 (wrap32 (done.count k))
              ((hinv k (wrap32 (done.count k))).mpr ⟨Nat.pos_of_ne_zero hne, rfl⟩)
          rw [h0]
          exact ⟨by omega, by decide⟩
      · rintro ⟨_, hv⟩
        rw [hv]
        by_cases h0 : done.count k = 0
        · refine Or.inr ⟨fun v0 h1 => ?_, ?_⟩
          · have := ((hinv k v0).mp h1).1
            omega
          · rw [h0]
            decide
        · refine Or.inl ⟨wrap32 (done.count k),
            (hinv k (wrap32 (done.count k))).mpr ⟨Nat.pos_of_ne_zero h0, rfl⟩, ?_⟩
          show _ = wrap32 (wrap32 _ + 1)
          rw [wrap32_wrap32_add]
          push_cast
          rfl
    · have hc : [key].count k = 0 := List.count_eq_zero.mpr (by simpa using hk)
      simp only [hk, ne_eq, not_false_eq_true, true_and, false_and, or_false, hc, add_zero]
      exact hinv k v

theorem count_map_snd {β : Type} (l : List (β × Int)) (s : Int) :
    (l.map Prod.snd).count s
      = ((l.filter (fun h => decide (h.2 = s))).map Prod.fst).length := by
  rw [List.length_map]
  induction l with
  | nil => rfl
  | cons h l ih =>
    simp only [List.map_cons, List.filter_cons, List.count_cons, ih]
    by_cases hs : h.2 = s
    · simp [hs]
    · simp [hs]

/-- The histogram of `CountCheats` holds exactly one entry for each key that
reaches line 191, with the number of pairs that reach it with that key. -/
theorem mem_CountCheats (costGrid : TwoDVector Int) (k v : Int) :
    (k, v) ∈ CountCheats costGrid ↔
      0 < (((countCheatsPairs costGrid).filter (fun h => decide (h.2 = k))).map
        Prod.fst).length ∧
      v = wrap32 ((((countCheatsPairs costGrid).filter (fun h => decide (h.2 = k))).map
        Prod.fst).length : Int) := by
  rw [CountCheats_eq_foldl,
    mem_foldl_mapIncrement _ [] [] List.Pairwise.nil (by simp) k v,
    List.nil_append, count_map_snd]

theorem ManhattanDistance_nonneg (a b : Coord) : 0 ≤ ManhattanDistance a b := by
  unfold ManhattanDistance
  omega

/-- With no overflow, the pairs that reach line 191 with key `s ≥ 1` are the
cheats within radius 20 whose saving is exactly `s`. -/
theorem length_filter_key (costGrid : TwoDVector Int)
    (hx : (20 : Int) + costGrid.XDim ≤ 2147483648)
    (hy : (20 : Int) + costGrid.YDim ≤ 2147483648)
    (hcost : ∀ a ∈ costGrid.coords, distance costGrid a ≠ INT32_MAX →
      -2147483648 ≤ distance costGrid a ∧ distance costGrid a + 20 < 2147483648)
    (hdiff : ∀ a ∈ costGrid.coords, ∀ b ∈ costGrid.coords,
      distance costGrid a ≠ INT32_MAX → distance costGrid b ≠ INT32_MAX →
      distance costGrid a - distance costGrid b < 2147483648)
    (s : Int) (hs : 1 ≤ s) :
    (((countCheatsPairs costGrid).filter (fun h => decide (h.2 = s))).map Prod.fst).length
      = cheatCountExactly costGrid 20 s := by
  unfold cheatCountExactly
  refine length_eq_of_mem_iff (nodup_filter_countCheatsPairs _ _)
    ((nodup_cheatsWithin _ _).filter _) (fun c => ?_)
  simp only [List.mem_map, List.mem_filter, decide_eq_true_eq]
  have hiff := mem_countCheatsPairs_iff costGrid hx hy hcost hdiff
  constructor
  · rintro ⟨h, ⟨hmem, hkey⟩, rfl⟩
    obtain ⟨h1, _, h3⟩ := (hiff h).mp hmem
    exact ⟨h1, by rw [← h3]; exact hkey⟩
  · rintro ⟨h1, h2⟩
    exact ⟨(c, s), ⟨(hiff _).mpr ⟨h1, by rw [h2]; omega, h2.symm⟩, rfl⟩, rfl⟩

/-! ## Claims about `ScoreCheats` -/

/-- C6, counterexample: on the 1×2 field `[0; 200]` the radius 1 counts one
cheat, but at radius `INT32_MAX` the bound `y + cheatPeriod` overflows to a
negative value, the row loop is empty and nothing is counted. -/
theorem ScoreCheats_not_mono_of_overflow :
    (1 : Int) ≤ 2147483647 ∧ ScoreCheats ⟨1, [0, 200]⟩ 1 = 1 ∧
      ScoreCheats ⟨1, [0, 200]⟩ 2147483647 = 0 := by
  decide

/-- C6 (amended): radius monotonicity holds when no `int` operation on the
radius or the counter overflows: for radii `r1 ≤ r2` whose absolute value plus
each grid dimension is at most 2^31, and when `++score` is executed fewer than
2^31 times at radius `r2`, `ScoreCheats` at `r1` is at most `ScoreCheats` at
`r2`, because every pair counted at `r1` is counted at `r2`. -/
theorem ScoreCheats_mono (costGrid : TwoDVector Int) (r1 r2 : Int) (h12 : r1 ≤ r2)
    (hx1 : (r1.natAbs : Int) + costGrid.XDim ≤ 2147483648)
    (hy1 : (r1.natAbs : Int) + costGrid.YDim ≤ 2147483648)
    (hx2 : (r2.natAbs : Int) + costGrid.XDim ≤ 2147483648)
    (hy2 : (r2.natAbs : Int) + costGrid.YDim ≤ 2147483648)
    (hcount : ((ScoreCheatsHits costGrid r2).length : Int) < 2147483648) :
    ScoreCheatsHits costGrid r1 ⊆ ScoreCheatsHits costGrid r2 ∧
      ScoreCheats costGrid r1 ≤ ScoreCheats costGrid r2 := by
  have hsub := scoreCheatsPairs_subset costGrid r1 r2 h12 hx1 hy1 hx2 hy2
  have hlen : (scoreCheatsPairs costGrid r1).length ≤ (scoreCheatsPairs costGrid r2).length :=
    ((nodup_scoreCheatsPairs costGrid r1).subperm hsub).length_le
  rw [ScoreCheatsHits_eq] at hcount
  refine ⟨by rw [ScoreCheatsHits_eq, ScoreCheatsHits_eq]; exact hsub, ?_⟩
  rw [ScoreCheats_eq_length, ScoreCheats_eq_length, ScoreCheatsHits_eq, ScoreCheatsHits_eq,
    wrap32_of_range (by omega) (by omega), wrap32_of_range (by omega) hcount]
  exact_mod_cast hlen

/-- C6, witness: the part-1 radius 2 against the part-2 radius 20 on a 3×2 field. -/
theorem ScoreCheats_mono_witness :
    ScoreCheatsHits ⟨3, [0, 1, 2, 200, 2147483647, 150]⟩ 2
        ⊆ ScoreCheatsHits ⟨3, [0, 1, 2, 200, 2147483647, 150]⟩ 20 ∧
      ScoreCheats ⟨3, [0, 1, 2, 200, 2147483647, 150]⟩ 2
        ≤ ScoreCheats ⟨3, [0, 1, 2, 200, 2147483647, 150]⟩ 20 :=
  ScoreCheats_mono ⟨3, [0, 1, 2, 200, 2147483647, 150]⟩ 2 20
    (by decide) (by decide) (by decide) (by decide) (by decide) (by decide)

/-- C9: for every radius and every distance field in which every defined
distance is below 100, `ScoreCheats` returns 0. -/
theorem ScoreCheats_eq_zero_of_short (costGrid : TwoDVector Int) (cheatPeriod : Int)
    (hshort : ∀ a ∈ costGrid.coords, distance costGrid a ≠ INT32_MAX →
      distance costGrid a < 100) :
    ScoreCheats costGrid cheatPeriod = 0 := by
  have hnil : scoreCheatsPairs costGrid cheatPeriod = [] := by
    rw [List.eq_nil_iff_forall_not_mem]
    intro c hc
    rw [mem_scoreCheatsPairs] at hc
    obtain ⟨h1, h2, h3, h4, _⟩ := hc
    have := hshort c.1 ((mem_coords _ _).mpr ⟨h1, h2⟩) h3
    unfold distance at this
    omega
  rw [ScoreCheats_eq_length, ScoreCheatsHits_eq, hnil]
  rfl

/-- C9, witness: the distance field of a 5×5 maze whose corridor has length 12
(distances 12 at the start down to 0 at the end), at radius 2. -/
theorem ScoreCheats_eq_zero_of_short_witness :
    ScoreCheats ⟨5, [12, 11, 10, 9, 8,
      2147483647, 2147483647, 2147483647, 2147483647, 7,
      2, 3, 4, 5, 6,
      1, 2147483647, 2147483647, 2147483647, 2147483647,
      0, 2147483647, 2147483647, 2147483647, 2147483647]⟩ 2 = 0 :=
  ScoreCheats_eq_zero_of_short _ 2 (by decide)

/-! ## Claims about `CountCheats` and `Score` -/

/-- C1: for every distance field whose defined entries are non-negative and
small enough that no addition overflows (every defined entry plus 120 is below
2^31 and each grid dimension plus 20 is at most 2^31), histogram mode and
threshold mode agree at radius 20:
`Score(CountCheats(costGrid)) = ScoreCheats(costGrid, 20)`. -/
theorem Score_CountCheats_eq_ScoreCheats (costGrid : TwoDVector Int)
    (hx : (20 : Int) + costGrid.XDim ≤ 2147483648)
    (hy : (20 : Int) + costGrid.YDim ≤ 2147483648)
    (hcost : ∀ a ∈ costGrid.coords, distance costGrid a ≠ INT32_MAX →
      0 ≤ distance costGrid a ∧ distance costGrid a + 120 < 2147483648) :
    Score (CountCheats costGrid) = ScoreCheats costGrid 20 := by
  rw [Score_CountCheats, ScoreCheats_eq_length, ScoreCheatsHits_eq]
  congr 2
  refine length_eq_of_mem_iff (nodup_filter_countCheatsPairs _ _)
    (nodup_scoreCheatsPairs _ _) (fun c => ?_)
  rw [mem_scoreCheatsPairs_iff costGrid 20 (by simpa using hx) (by simpa using hy)
    (fun a ha hd => ⟨by linarith [(hcost a ha hd).1], by linarith [(hcost a ha hd).2]⟩)]
  simp only [List.mem_map, List.mem_filter, decide_eq_true_eq]
  have hiff := mem_countCheatsPairs_iff costGrid hx hy
    (fun a ha hd => ⟨by linarith [(hcost a ha hd).1], by linarith [(hcost a ha hd).2]⟩)
    (fun a ha b hb hda hdb => by
      have h1 := hcost a ha hda
      have h2 := hcost b hb hdb
      linarith)
  constructor
  · rintro ⟨h, ⟨hmem, hkey⟩, rfl⟩
    obtain ⟨h1, h2, h3⟩ := (hiff h).mp hmem
    refine ⟨h1, by rw [← h3]; exact hkey, ?_⟩
    rw [mem_cheatsWithin] at h1
    have hB := (hcost h.1.2 h1.2.1 h1.2.2.2.1).1
    have hm : 0 ≤ ManhattanDistance h.1.1 h.1.2 := by unfold ManhattanDistance; omega
    rw [h3] at hkey
    unfold saving at hkey
    linarith
  · rintro ⟨h1, h2, _⟩
    refine ⟨(c, saving costGrid c.1 c.2), ⟨(hiff _).mpr ⟨h1, by linarith, rfl⟩, h2⟩, rfl⟩

/-- C1, witness: a 3×2 field on which both modes count six cheats. -/
theorem Score_CountCheats_eq_ScoreCheats_witness :
    ScoreCheats ⟨3, [0, 1, 2, 200, 2147483647, 150]⟩ 20 = 6 ∧
      Score (CountCheats ⟨3, [0, 1, 2, 200, 2147483647, 150]⟩)
        = ScoreCheats ⟨3, [0, 1, 2, 200, 2147483647, 150]⟩ 20 :=
  ⟨by decide, Score_CountCheats_eq_ScoreCheats ⟨3, [0, 1, 2, 200, 2147483647, 150]⟩
    (by decide) (by decide) (by decide)⟩

/-- C10, counterexample: on the histogram `{100 ↦ 2147483647, 101 ↦ 1}` the
`int` accumulator `total` overflows: `Score` returns −2147483648 while the sum
of the counts stored under keys ≥ 100 is 2147483648. -/
theorem Score_ne_sum_of_overflow :
    IsStdMap [(100, 2147483647), (101, 1)] ∧
      Score [(100, 2147483647), (101, 1)] = -2147483648 ∧
      sumAtLeast100 [(100, 2147483647), (101, 1)] = 2147483648 := by
  unfold IsStdMap
  decide

/-- C10 (amended): for every histogram (a map from saving to count, in key
order), `Score` returns the sum of the counts stored under keys ≥ 100 reduced to
the 32-bit `int` range, ignoring every entry whose key is below 100; it is
exactly that sum whenever the sum lies in the `int` range, and it is 0 on the
empty histogram. -/
theorem Score_eq_sum (cheats : List (Int × Int)) (hmap : IsStdMap cheats) :
    Score cheats = wrap32 (sumAtLeast100 cheats) ∧
      (-2147483648 ≤ sumAtLeast100 cheats → sumAtLeast100 cheats < 2147483648 →
        Score cheats = sumAtLeast100 cheats) ∧
      Score [] = 0 :=
  ⟨Score_eq_wrap32_sum cheats hmap,
    fun h1 h2 => by rw [Score_eq_wrap32_sum cheats hmap, wrap32_of_range h1 h2], by decide⟩

/-- C10, witness: a histogram with two entries below 100 and two above. -/
theorem Score_eq_sum_witness :
    Score [(2, 14), (64, 1), (100, 3), (147, 5)] = 8 ∧
      Score [(2, 14), (64, 1), (100, 3), (147, 5)]
        = sumAtLeast100 [(2, 14), (64, 1), (100, 3), (147, 5)] :=
  ⟨by decide, (Score_eq_sum [(2, 14), (64, 1), (100, 3), (147, 5)]
    (by unfold IsStdMap; decide)).2.1 (by decide) (by decide)⟩

set_option maxRecDepth 4000 in
/-- C5, counterexample: on the 1×3 field `[0, sentinel, 2147483646]` the
addition `nextCost += cheatCost` overflows for the pair from the first to the
last cell, and the histogram receives the key −2147483648, which is not ≥ 1. -/
theorem CountCheats_key_of_overflow :
    CountCheats ⟨3, [0, 2147483647, 2147483646]⟩
        = [(-2147483648, 1), (2147483644, 1)] ∧
      ¬ ∀ e ∈ CountCheats ⟨3, [0, 2147483647, 2147483646]⟩, 1 ≤ e.1 := by
  have h : CountCheats ⟨3, [0, 2147483647, 2147483646]⟩
      = [(-2147483648, 1), (2147483644, 1)] := by
    rw [CountCheats_eq_foldl]
    decide
  rw [h]
  decide

/-- C5 (amended): for every distance field on which no `int` operation on a
cost or coordinate in `CountCheats` overflows (each grid dimension plus 20 is at
most 2^31, every entry other than the sentinel is an `int` with entry + 20 below
2^31, and the difference of two such entries is below 2^31), the histogram
returned by `CountCheats` is a map in key order that holds an entry for exactly
the savings s ≥ 1 that occur, and the count stored under s is the number of
ordered pairs (A, B) of in-grid cells with defined distances,
ManhattanDistance(A, B) ≤ 20 and
distance(A) − distance(B) − ManhattanDistance(A, B) = s, reduced to the `int`
range; for every saving whose number of pairs is below 2^31, the entries with
that key are exactly the pairs (s, v) with s ≥ 1, v ≥ 1 and v that number. -/
theorem CountCheats_histogram (costGrid : TwoDVector Int)
    (hx : (20 : Int) + costGrid.XDim ≤ 2147483648)
    (hy : (20 : Int) + costGrid.YDim ≤ 2147483648)
    (hcost : ∀ a ∈ costGrid.coords, distance costGrid a ≠ INT32_MAX →
      -2147483648 ≤ distance costGrid a ∧ distance costGrid a + 20 < 2147483648)
    (hdiff : ∀ a ∈ costGrid.coords, ∀ b ∈ costGrid.coords,
      distance costGrid a ≠ INT32_MAX → distance costGrid b ≠ INT32_MAX →
      distance costGrid a - distance costGrid b < 2147483648) :
    IsStdMap (CountCheats costGrid) ∧
      ∀ s v : Int,
        ((s, v) ∈ CountCheats costGrid ↔
          1 ≤ s ∧ 1 ≤ cheatCountExactly costGrid 20 s ∧
            v = wrap32 (cheatCountExactly costGrid 20 s : Int)) ∧
        ((cheatCountExactly costGrid 20 s : Int) < 2147483648 →
          ((s, v) ∈ CountCheats costGrid ↔
            1 ≤ s ∧ 1 ≤ v ∧ v = (cheatCountExactly costGrid 20 s : Int))) := by
  refine ⟨CountCheats_isStdMap costGrid, fun s v => ?_⟩
  have hiff : (s, v) ∈ CountCheats costGrid ↔
      1 ≤ s ∧ 1 ≤ cheatCountExactly costGrid 20 s ∧
        v = wrap32 (cheatCountExactly costGrid 20 s : Int) := by
    rw [mem_CountCheats]
    constructor
    · rintro ⟨hpos, hv⟩
      have hs : 1 ≤ s := by
        obtain ⟨c, hc⟩ := List.exists_mem_of_length_pos hpos
        simp only [List.mem_map, List.mem_filter, decide_eq_true_eq] at hc
        obtain ⟨h, ⟨hmem, hkey⟩, _⟩ := hc
        obtain ⟨_, h2, h3⟩ := (mem_countCheatsPairs_iff costGrid hx hy hcost hdiff h).mp hmem
        omega
      rw [length_filter_key costGrid hx hy hcost hdiff s hs] at hpos hv
      exact ⟨hs, hpos, hv⟩
    · rintro ⟨hs, hpos, hv⟩
      rw [length_filter_key costGrid hx hy hcost hdiff s hs]
      exact ⟨hpos, hv⟩
  refine ⟨hiff, fun hle => ?_⟩
  rw [hiff, wrap32_of_range (by omega) hle]
  constructor
  · rintro ⟨hs, hpos, hv⟩
    exact ⟨hs, by omega, hv⟩
  · rintro ⟨hs, hv1, hv⟩
    exact ⟨hs, by omega, hv⟩

set_option maxRecDepth 4000 in
/-- C5, witness: the histogram of a 3×2 field. -/
theorem CountCheats_histogram_witness :
    CountCheats ⟨3, [0, 1, 2, 200, 2147483647, 150]⟩
        = [(48, 1), (147, 3), (195, 1), (197, 1), (199, 1)] ∧
      ∀ s v : Int,
        ((s, v) ∈ CountCheats ⟨3, [0, 1, 2, 200, 2147483647, 150]⟩ ↔
          1 ≤ s ∧ 1 ≤ cheatCountExactly ⟨3, [0, 1, 2, 200, 2147483647, 150]⟩ 20 s ∧
            v = wrap32 (cheatCountExactly ⟨3, [0, 1, 2, 200, 2147483647, 150]⟩ 20 s : Int)) ∧
        ((cheatCountExactly ⟨3, [0, 1, 2, 200, 2147483647, 150]⟩ 20 s : Int) < 2147483648 →
          ((s, v) ∈ CountCheats ⟨3, [0, 1, 2, 200, 2147483647, 150]⟩ ↔
            1 ≤ s ∧ 1 ≤ v ∧
              v = (cheatCountExactly ⟨3, [0, 1, 2, 200, 2147483647, 150]⟩ 20 s : Int))) :=
  ⟨by rw [CountCheats_eq_foldl]; decide,
    (CountCheats_histogram ⟨3, [0, 1, 2, 200, 2147483647, 150]⟩
      (by decide) (by decide) (by decide) (by decide)).2⟩

/-- C7, counterexample: on the one-cell field holding 2147483646 the test
`nextCost + 100 > currentCost` overflows, and `ScoreCheats` at radius 0 counts
the pair of the cell with itself, so a counted pair (A, B) can have A = B. -/
theorem ScoreCheats_counts_self_of_overflow :
    ((⟨0, 0⟩, ⟨0, 0⟩) : Cheat) ∈ ScoreCheatsHits ⟨1, [2147483646]⟩ 0 := by
  decide

/-- C7 (amended): when no `int` operation overflows (the radius and 20 plus each
grid dimension are at most 2^31; every defined entry is an `int` with
entry + radius + 100 and entry + 20 below 2^31; the difference of two defined
entries is below 2^31), each unordered pair is counted at most once in both
modes, without the seen-set: the loops of `ScoreCheats` and of `CountCheats`
reach their counting statement at most once per ordered pair, and if the
ordered pair (A, B) is counted then A ≠ B, distance(A) > distance(B), and the
reversed pair (B, A) is not counted. -/
theorem cheat_counted_once (costGrid : TwoDVector Int) (cheatPeriod : Int)
    (hx : (cheatPeriod.natAbs : Int) + costGrid.XDim ≤ 2147483648)
    (hy : (cheatPeriod.natAbs : Int) + costGrid.YDim ≤ 2147483648)
    (hx20 : (20 : Int) + costGrid.XDim ≤ 2147483648)
    (hy20 : (20 : Int) + costGrid.YDim ≤ 2147483648)
    (hcost : ∀ a ∈ costGrid.coords, distance costGrid a ≠ INT32_MAX →
      -2147483648 ≤ distance costGrid a ∧
        distance costGrid a + cheatPeriod + 100 < 2147483648 ∧
        distance costGrid a + 20 < 2147483648)
    (hdiff : ∀ a ∈ costGrid.coords, ∀ b ∈ costGrid.coords,
      distance costGrid a ≠ INT32_MAX → distance costGrid b ≠ INT32_MAX →
      distance costGrid a - distance costGrid b < 2147483648) :
    ((ScoreCheatsHits costGrid cheatPeriod).Nodup ∧
      ∀ c ∈ ScoreCheatsHits costGrid cheatPeriod,
        c.1 ≠ c.2 ∧ distance costGrid c.2 < distance costGrid c.1 ∧
          (c.2, c.1) ∉ ScoreCheatsHits costGrid cheatPeriod) ∧
    (((CountCheatsHits costGrid).map Prod.fst).Nodup ∧
      ∀ h ∈ CountCheatsHits costGrid,
        h.1.1 ≠ h.1.2 ∧ distance costGrid h.1.2 < distance costGrid h.1.1 ∧
          ∀ k : Int, ((h.1.2, h.1.1), k) ∉ CountCheatsHits costGrid) := by
  have hS := mem_scoreCheatsPairs_iff costGrid cheatPeriod hx hy
    (fun a ha hd => ⟨(hcost a ha hd).1, (hcost a ha hd).2.1⟩)
  have hC := mem_countCheatsPairs_iff costGrid hx20 hy20
    (fun a ha hd => ⟨(hcost a ha hd).1, (hcost a ha hd).2.2⟩) hdiff
  rw [ScoreCheatsHits_eq, CountCheatsHits_eq]
  refine ⟨⟨nodup_scoreCheatsPairs _ _, fun c hc => ?_⟩,
    ⟨nodup_countCheatsPairs _, fun h hh => ?_⟩⟩
  · obtain ⟨_, h2, _⟩ := (hS c).mp hc
    have hm := ManhattanDistance_nonneg c.1 c.2
    unfold saving at h2
    refine ⟨fun heq => ?_, by linarith, fun hrev => ?_⟩
    · rw [heq] at h2
      have := ManhattanDistance_nonneg c.2 c.2
      linarith
    · obtain ⟨_, h3, _⟩ := (hS (c.2, c.1)).mp hrev
      have hm2 := ManhattanDistance_nonneg c.2 c.1
      unfold saving at h3
      simp only at h3
      linarith
  · obtain ⟨_, h2, _⟩ := (hC h).mp hh
    have hm := ManhattanDistance_nonneg h.1.1 h.1.2
    unfold saving at h2
    refine ⟨fun heq => ?_, by linarith, fun k hrev => ?_⟩
    · rw [heq] at h2
      have := ManhattanDistance_nonneg h.1.2 h.1.2
      linarith
    · obtain ⟨_, h3, _⟩ := (hC ((h.1.2, h.1.1), k)).mp hrev
      have hm2 := ManhattanDistance_nonneg h.1.2 h.1.1
      unfold saving at h3
      simp only at h3
      linarith

/-- C7, witness: a 3×2 field at the part-1 radius 2. -/
theorem cheat_counted_once_witness :
    ((ScoreCheatsHits ⟨3, [0, 1, 2, 200, 2147483647, 150]⟩ 2).Nodup ∧
      ∀ c ∈ ScoreCheatsHits ⟨3, [0, 1, 2, 200, 2147483647, 150]⟩ 2,
        c.1 ≠ c.2 ∧
          distance ⟨3, [0, 1, 2, 200, 2147483647, 150]⟩ c.2
            < distance ⟨3, [0, 1, 2, 200, 2147483647, 150]⟩ c.1 ∧
          (c.2, c.1) ∉ ScoreCheatsHits ⟨3, [0, 1, 2, 200, 2147483647, 150]⟩ 2) ∧
    (((CountCheatsHits ⟨3, [0, 1, 2, 200, 2147483647, 150]⟩).map Prod.fst).Nodup ∧
      ∀ h ∈ CountCheatsHits ⟨3, [0, 1, 2, 200, 2147483647, 150]⟩,
        h.1.1 ≠ h.1.2 ∧
          distance ⟨3, [0, 1, 2, 200, 2147483647, 150]⟩ h.1.2
            < distance ⟨3, [0, 1, 2, 200, 2147483647, 150]⟩ h.1.1 ∧
          ∀ k : Int, ((h.1.2, h.1.1), k)
            ∉ CountCheatsHits ⟨3, [0, 1, 2, 200, 2147483647, 150]⟩) :=
  cheat_counted_once ⟨3, [0, 1, 2, 200, 2147483647, 150]⟩ 2
    (by decide) (by decide) (by decide) (by decide) (by decide) (by decide)

/-! ## Reading and writing grid cells -/

theorem coords_nat {α : Type} (v : TwoDVector α) (c : Coord) (hc : c ∈ v.coords) :
    ∃ xn yn : Nat, c = ⟨(xn : Int), (yn : Int)⟩ ∧ xn < v.XDim ∧ yn < v.YDim := by
  rw [mem_coords] at hc
  refine ⟨c.x.toNat, c.y.toNat, ?_, by omega, by omega⟩
  obtain ⟨x, y⟩ := c
  simp only [Coord.mk.injEq] at hc ⊢
  omega

theorem index_nat {α : Type} (v : TwoDVector α) (xn yn : Nat) :
    v.index (yn : Int) (xn : Int) = yn * v.xDim + xn := by
  unfold TwoDVector.index
  have : ((yn : Int) * (v.xDim : Int) + (xn : Int)) = ((yn * v.xDim + xn : Nat) : Int) := by
    push_cast; ring
  rw [this, Int.toNat_natCast]

theorem index_lt {α : Type} (v : TwoDVector α) (c : Coord) (hc : c ∈ v.coords) :
    v.index c.y c.x < v.XDim * v.YDim := by
  obtain ⟨xn, yn, rfl, hx, hy⟩ := coords_nat v c hc
  rw [index_nat]
  unfold TwoDVector.XDim at hx ⊢
  calc yn * v.xDim + xn < yn * v.xDim + v.xDim := by omega
    _ = (yn + 1) * v.xDim := by ring
    _ ≤ v.YDim * v.xDim := Nat.mul_le_mul_right _ hy
    _ = v.xDim * v.YDim := Nat.mul_comm _ _

theorem dims_le_length {α : Type} (v : TwoDVector α) : v.XDim * v.YDim ≤ v.data.length := by
  unfold TwoDVector.XDim TwoDVector.YDim
  exact Nat.mul_div_le _ _

theorem index_inj {α : Type} (v : TwoDVector α) (c c' : Coord) (hc : c ∈ v.coords)
    (hc' : c' ∈ v.coords) (h : v.index c.y c.x = v.index c'.y c'.x) : c = c' := by
  obtain ⟨xn, yn, rfl, hx, hy⟩ := coords_nat v c hc
  obtain ⟨xn', yn', rfl, hx', hy'⟩ := coords_nat v c' hc'
  rw [index_nat, index_nat] at h
  unfold TwoDVector.XDim at hx hx'
  have hpos : 0 < v.xDim := by omega
  have h1 : (yn * v.xDim + xn) / v.xDim = yn := by
    rw [Nat.add_comm, Nat.add_mul_div_right _ _ hpos, Nat.div_eq_of_lt hx, Nat.zero_add]
  have h2 : (yn' * v.xDim + xn') / v.xDim = yn' := by
    rw [Nat.add_comm, Nat.add_mul_div_right _ _ hpos, Nat.div_eq_of_lt hx', Nat.zero_add]
  have hy_eq : yn = yn' := by rw [← h1, ← h2, h]
  subst hy_eq
  have hx_eq : xn = xn' := by omega
  subst hx_eq
  rfl

theorem set_length {α : Type} (v : TwoDVector α) (y x : Int) (a : α) :
    (v.set y x a).data.length = v.data.length := by
  unfold TwoDVector.set
  simp

theorem get_set_self {α : Type} [Inhabited α] (v : TwoDVector α) (c : Coord)
    (hc : c ∈ v.coords) (a : α) : (v.set c.y c.x a).get c.y c.x = a := by
  have hlt := lt_of_lt_of_le (index_lt v c hc) (dims_le_length v)
  unfold TwoDVector.get TwoDVector.set
  show (v.data.set (v.index c.y c.x) a).getD (v.index c.y c.x) default = a
  rw [List.getD_eq_getElem?_getD, List.getElem?_set_self hlt]
  rfl

theorem get_set_ne {α : Type} [Inhabited α] (v : TwoDVector α) (c c' : Coord)
    (hc : c ∈ v.coords) (hc' : c' ∈ v.coords) (hne : c' ≠ c) (a : α) :
    (v.set c.y c.x a).get c'.y c'.x = v.get c'.y c'.x := by
  have hidx : v.index c.y c.x ≠ v.index c'.y c'.x :=
    fun h => hne (index_inj v c c' hc hc' h).symm
  unfold TwoDVector.get TwoDVector.set
  show (v.data.set (v.index c.y c.x) a).getD (v.index c'.y c'.x) default = _
  rw [List.getD_eq_getElem?_getD, List.getD_eq_getElem?_getD, List.getElem?_set_ne hidx]

theorem initialCosts_coords (input : TwoDVector Char) :
    (initialCosts input).coords = input.coords := by
  unfold TwoDVector.coords
  have hy : (initialCosts input).YDim = input.YDim := by
    unfold initialCosts TwoDVector.YDim TwoDVector.XDim
    simp only [List.length_replicate]
    by_cases h : input.xDim = 0
    · simp [h]
    · exact Nat.mul_div_cancel_left _ (Nat.pos_of_ne_zero h)
  rw [hy]
  rfl

theorem initialCosts_get (input : TwoDVector Char) (c : Coord) (hc : c ∈ input.coords) :
    (initialCosts input).get c.y c.x = INT32_MAX := by
  have hlt := index_lt input c hc
  unfold TwoDVector.get
  have hi : (initialCosts input).index c.y c.x = input.index c.y c.x := rfl
  rw [hi, List.getD_eq_getElem?_getD]
  unfold initialCosts
  simp only
  rw [List.getElem?_replicate, if_pos hlt]
  rfl

/-! ## The marker scan -/

/-- The update of (`raceStart`, `raceEnd`) at one cell of the scan. -/
theorem findMarkers_eq_foldl (input : TwoDVector Char) :
    findMarkers input = input.coords.foldl (fun (st : Coord × Coord) c =>
      if input.get c.y c.x = 'E'
        then ((if input.get c.y c.x = 'S' then (c, st.2) else st).1, c)
        else (if input.get c.y c.x = 'S' then (c, st.2) else st)) (⟨0, 0⟩, ⟨0, 0⟩) := by
  unfold findMarkers TwoDVector.coords
  rw [foldl_flatMap_eq]
  refine List.foldl_ext _ _ _ (fun st y _ => ?_)
  rw [List.foldl_map]

theorem isOpen_coords {input : TwoDVector Char} {c : Coord} (h : IsOpen input c) :
    c ∈ input.coords := by
  rw [mem_coords]
  exact (isInBounds_iff _ _ _).mp h.1

theorem WalkTo.isOpen {input : TwoDVector Char} {e c : Coord} {n : Nat}
    (h : WalkTo input e n c) : IsOpen input c := by
  cases h with
  | start h => exact h
  | step _ _ h => exact h

theorem walkTo_zero {input : TwoDVector Char} {e c : Coord} (h : WalkTo input e 0 c) :
    c = e := by
  cases h
  rfl

theorem shortestWalk_zero {input : TwoDVector Char} {e : Coord} (he : IsOpen input e) :
    ShortestWalk input e 0 e :=
  ⟨WalkTo.start he, fun _ _ => Nat.zero_le _⟩

theorem shortestWalk_unique {input : TwoDVector Char} {e c : Coord} {n m : Nat}
    (h1 : ShortestWalk input e n c) (h2 : ShortestWalk input e m c) : n = m :=
  le_antisymm (h1.2 m h2.1) (h2.2 n h1.1)

theorem exists_shortestWalk {input : TwoDVector Char} {e c : Coord} {n : Nat}
    (h : WalkTo input e n c) : ∃ m, m ≤ n ∧ ShortestWalk input e m c := by
  classical
  have hex : ∃ m, WalkTo input e m c := ⟨n, h⟩
  refine ⟨Nat.find hex, Nat.find_min' hex h, Nat.find_spec hex, fun m hm => Nat.find_min' hex hm⟩

/-- The cell before the last on a shortest walk is one step closer. -/
theorem shortestWalk_pred {input : TwoDVector Char} {e c' : Coord} {n : Nat}
    (h : ShortestWalk input e (n + 1) c') :
    ∃ c, ShortestWalk input e n c ∧ Adjacent c c' := by
  obtain ⟨hw, hmin⟩ := h
  cases hw with
  | step hw hadj hopen =>
    rename_i c
    refine ⟨c, ⟨hw, fun m hm => ?_⟩, hadj⟩
    have := hmin (m + 1) (WalkTo.step hm hadj hopen)
    omega

theorem shortestWalk_level {input : TwoDVector Char} {e c : Coord} {n : Nat}
    (h : ShortestWalk input e n c) : ∀ j, j ≤ n → ∃ c', ShortestWalk input e j c' := by
  induction n generalizing c with
  | zero =>
    intro j hj
    have : j = 0 := by omega
    subst this
    exact ⟨c, h⟩
  | succ n ih =>
    intro j hj
    by_cases hjn : j = n + 1
    · subst hjn
      exact ⟨c, h⟩
    · obtain ⟨c0, h0, _⟩ := shortestWalk_pred h
      exact ih h0 j (by omega)

theorem length_loopLt (n : Nat) : (loopLt n).length = n := by
  unfold loopLt
  simp

theorem length_coords {α : Type} (v : TwoDVector α) : v.coords.length = v.XDim * v.YDim := by
  unfold TwoDVector.coords
  rw [List.length_flatMap]
  have : (List.length ∘ fun y : Int => (loopLt v.XDim).map (fun x => (⟨x, y⟩ : Coord)))
      = fun _ => v.XDim := by
    funext y
    rw [Function.comp_apply, List.length_map, length_loopLt]
  rw [this, List.map_const', List.sum_replicate, length_loopLt, smul_eq_mul, Nat.mul_comm]

/-- Levels 0 to `k` hold at least `k + 1` distinct cells of the grid. -/
theorem level_bound {input : TwoDVector Char} {e : Coord} {k : Nat}
    (h : ∀ j, j ≤ k → ∃ c, ShortestWalk input e j c) : k + 1 ≤ input.XDim * input.YDim := by
  classical
  choose f hf using h
  let g : Nat → Coord := fun j => if hj : j ≤ k then f j hj else ⟨0, 0⟩
  have hg : ∀ j, j ≤ k → ShortestWalk input e j (g j) := by
    intro j hj
    simp only [g, dif_pos hj]
    exact hf j hj
  have hmaps : ∀ j ∈ Finset.range (k + 1), g j ∈ input.coords.toFinset := by
    intro j hj
    rw [List.mem_toFinset]
    exact isOpen_coords (hg j (by simpa [Nat.lt_succ_iff] using hj)).1.isOpen
  have hinj : Set.InjOn g (Finset.range (k + 1) : Set Nat) := by
    intro a ha b hb hab
    have ha' : a ≤ k := by simpa [Nat.lt_succ_iff] using ha
    have hb' : b ≤ k := by simpa [Nat.lt_succ_iff] using hb
    have h1 := hg a ha'
    have h2 := hg b hb'
    rw [hab] at h1
    exact shortestWalk_unique h1 h2
  have hcard := Finset.card_le_card_of_injOn g hmaps hinj
  rw [Finset.card_range, List.toFinset_card_of_nodup (nodup_coords input), length_coords] at hcard
  exact hcard

theorem shortestWalk_lt {input : TwoDVector Char} {e c : Coord} {n : Nat}
    (h : ShortestWalk input e n c) : n + 1 ≤ input.XDim * input.YDim :=
  level_bound (shortestWalk_level h)

/-- The 4-adjacent cells are the neighbours in the four directions. -/
theorem adjacent_iff (a b : Coord) :
    Adjacent a b ↔ ∃ d : Direction, b = ⟨a.x + DirectionToX d, a.y + DirectionToY d⟩ := by
  obtain ⟨ax, ay⟩ := a
  obtain ⟨bx, by_⟩ := b
  unfold Adjacent ManhattanDistance
  simp only [Coord.mk.injEq]
  constructor
  · intro h
    have : (bx = ax ∧ by_ = ay - 1) ∨ (bx = ax + 1 ∧ by_ = ay) ∨ (bx = ax ∧ by_ = ay + 1) ∨
        (bx = ax - 1 ∧ by_ = ay) := by omega
    rcases this with ⟨h1, h2⟩ | ⟨h1, h2⟩ | ⟨h1, h2⟩ | ⟨h1, h2⟩
    · exact ⟨.up, by simp [DirectionToX, DirectionToY, h1, h2]; omega⟩
    · exact ⟨.right, by simp [DirectionToX, DirectionToY, h1, h2]⟩
    · exact ⟨.down, by simp [DirectionToX, DirectionToY, h1, h2]⟩
    · exact ⟨.left, by simp [DirectionToX, DirectionToY, h1, h2]; omega⟩
  · rintro ⟨d, h1, h2⟩
    cases d <;> simp only [DirectionToX, DirectionToY] at h1 h2 <;> omega

/-- The neighbour computed by the source, for a cell of a grid whose
dimensions fit in an `int`. -/
theorem nextCoordOf_eq {α : Type} (v : TwoDVector α) (c : Coord) (hc : c ∈ v.coords)
    (hx : (v.XDim : Int) < 2147483648) (hy : (v.YDim : Int) < 2147483648) (d : Direction) :
    nextCoordOf c d = ⟨c.x + DirectionToX d, c.y + DirectionToY d⟩ := by
  rw [mem_coords] at hc
  unfold nextCoordOf
  have h1 : iadd c.x (DirectionToX d) = c.x + DirectionToX d :=
    iadd_eq (by cases d <;> simp only [DirectionToX] <;> omega)
      (by cases d <;> simp only [DirectionToX] <;> omega)
  have h2 : iadd c.y (DirectionToY d) = c.y + DirectionToY d :=
    iadd_eq (by cases d <;> simp only [DirectionToY] <;> omega)
      (by cases d <;> simp only [DirectionToY] <;> omega)
  rw [h1, h2]

/-! ## The frontier expansion of `Dijkstras` -/

theorem sameShape_coords {input : TwoDVector Char} {costs : TwoDVector Int}
    (h : SameShape input costs) : costs.coords = input.coords := by
  obtain ⟨h1, h2⟩ := h
  unfold TwoDVector.coords
  have hx : costs.XDim = input.XDim := h1
  have hy : costs.YDim = input.YDim := by
    unfold TwoDVector.YDim
    rw [h2, h1]
    unfold TwoDVector.XDim TwoDVector.YDim
    by_cases h : input.xDim = 0
    · simp [h]
    · exact Nat.mul_div_cancel_left _ (Nat.pos_of_ne_zero h)
  rw [hx, hy]

theorem sameShape_set {input : TwoDVector Char} {costs : TwoDVector Int}
    (h : SameShape input costs) (y x v : Int) : SameShape input (costs.set y x v) :=
  ⟨h.1, by rw [set_length]; exact h.2⟩

theorem persist_refl (input : TwoDVector Char) (st : DijkstraState) : Persist input st st :=
  fun _ _ _ => rfl

theorem persist_trans {input : TwoDVector Char} {a b c : DijkstraState}
    (h1 : Persist input a b) (h2 : Persist input b c) : Persist input a c := by
  intro x hx hne
  have e1 := h1 x hx hne
  rw [h2 x hx (by rw [e1]; exact hne), e1]

theorem relax_skip_bounds (input : TwoDVector Char) (st : DijkstraState) (coord : Coord)
    (d : Direction)
    (h : input.IsInBounds (nextCoordOf coord d).x (nextCoordOf coord d).y = false) :
    relax input st coord d = st := by
  unfold relax
  simp [h]

theorem relax_skip_wall (input : TwoDVector Char) (st : DijkstraState) (coord : Coord)
    (d : Direction)
    (h : input.get (nextCoordOf coord d).y (nextCoordOf coord d).x = '#') :
    relax input st coord d = st := by
  unfold relax
  simp [h]

theorem relax_skip_cost (input : TwoDVector Char) (st : DijkstraState) (coord : Coord)
    (d : Direction)
    (h : iadd (st.costs.get coord.y coord.x) 1
      ≥ st.costs.get (nextCoordOf coord d).y (nextCoordOf coord d).x) :
    relax input st coord d = st := by
  unfold relax
  simp [h]

theorem relax_update (input : TwoDVector Char) (st : DijkstraState) (coord : Coord)
    (d : Direction)
    (h1 : input.IsInBounds (nextCoordOf coord d).x (nextCoordOf coord d).y = true)
    (h2 : input.get (nextCoordOf coord d).y (nextCoordOf coord d).x ≠ '#')
    (h3 : ¬ iadd (st.costs.get coord.y coord.x) 1
      ≥ st.costs.get (nextCoordOf coord d).y (nextCoordOf coord d).x)
    (h4 : st.costs.get (nextCoordOf coord d).y (nextCoordOf coord d).x = INT32_MAX) :
    relax input st coord d =
      { costs := st.costs.set (nextCoordOf coord d).y (nextCoordOf coord d).x
          (iadd (st.costs.get coord.y coord.x) 1),
        candidates := bucketModify (fun b => b ++ [nextCoordOf coord d]) st.candidates
          (toSizeT (iadd (st.costs.get coord.y coord.x) 1)) } := by
  unfold relax
  simp only [h1, h2, h4, Bool.not_true, Bool.false_eq_true, if_false, ne_eq, not_true_eq_false]
  rw [h4] at h3
  rw [if_neg h3]

theorem toSizeT_natCast (n : Nat) (h : (n : Int) < 2147483648) : toSizeT (n : Int) = n := by
  unfold toSizeT
  omega

theorem dims_lt_of_mem {α : Type} (v : TwoDVector α) (c : Coord) (hc : c ∈ v.coords)
    (hsize : ((v.XDim * v.YDim : Nat) : Int) < 2147483647) :
    (v.XDim : Int) < 2147483648 ∧ (v.YDim : Int) < 2147483648 := by
  obtain ⟨xn, yn, _, hx, hy⟩ := coords_nat v c hc
  have h1 : v.XDim ≤ v.XDim * v.YDim := Nat.le_mul_of_pos_right _ (by omega)
  have h2 : v.YDim ≤ v.XDim * v.YDim := Nat.le_mul_of_pos_left _ (by omega)
  omega

/-- One relaxation while the bucket of cost `k` is processed keeps the
invariants, changes no finite cost, and leaves the neighbour with a finite cost
when it is an open cell. -/
theorem relax_spec (input : TwoDVector Char) (e : Coord) (k : Nat)
    (hsize : ((input.XDim * input.YDim : Nat) : Int) < 2147483647)
    (st : DijkstraState) (hF : FieldShape input e (k + 1) st) (hD : LevelsDone input e k st)
    (coord : Coord) (hcoord : ShortestWalk input e k coord) (d : Direction) :
    FieldShape input e (k + 1) (relax input st coord d) ∧
      LevelsDone input e k (relax input st coord d) ∧
      Persist input st (relax input st coord d) ∧
      (IsOpen input (nextCoordOf coord d) →
        (relax input st coord d).costs.get (nextCoordOf coord d).y (nextCoordOf coord d).x
          ≠ INT32_MAX) := by
  have hcmem : coord ∈ input.coords := isOpen_coords hcoord.1.isOpen
  have hck : st.costs.get coord.y coord.x = (k : Int) := hD coord k le_rfl hcoord
  have hk : k + 1 ≤ input.XDim * input.YDim := shortestWalk_lt hcoord
  have hkI : (k : Int) + 1 < 2147483647 := by omega
  have hnext : iadd (st.costs.get coord.y coord.x) 1 = ((k + 1 : Nat) : Int) := by
    rw [hck, iadd_eq (by omega) (by omega)]
    push_cast
    rfl
  obtain ⟨hshape, hlab, hcand⟩ := hF
  have hcoords := sameShape_coords hshape
  by_cases hb : input.IsInBounds (nextCoordOf coord d).x (nextCoordOf coord d).y = true
  swap
  · rw [relax_skip_bounds input st coord d (by simpa using hb)]
    exact ⟨⟨hshape, hlab, hcand⟩, hD, persist_refl _ _, fun ho => absurd ho.1 hb⟩
  by_cases hw : input.get (nextCoordOf coord d).y (nextCoordOf coord d).x = '#'
  · rw [relax_skip_wall input st coord d hw]
    exact ⟨⟨hshape, hlab, hcand⟩, hD, persist_refl _ _, fun ho => absurd hw ho.2⟩
  have hopen : IsOpen input (nextCoordOf coord d) := ⟨hb, hw⟩
  have hnmem : nextCoordOf coord d ∈ input.coords := isOpen_coords hopen
  by_cases hge : iadd (st.costs.get coord.y coord.x) 1
      ≥ st.costs.get (nextCoordOf coord d).y (nextCoordOf coord d).x
  · rw [relax_skip_cost input st coord d hge]
    refine ⟨⟨hshape, hlab, hcand⟩, hD, persist_refl _ _, fun _ hmax => ?_⟩
    rw [hmax, hnext] at hge
    simp only [INT32_MAX] at hge
    push_cast at hge
    omega
  -- the neighbour holds the sentinel and receives the cost `k + 1`
  have hmax : st.costs.get (nextCoordOf coord d).y (nextCoordOf coord d).x = INT32_MAX := by
    rcases hlab _ hnmem with h | ⟨n, hn, hv, _⟩
    · exact h
    · exfalso
      rw [hv, hnext] at hge
      push_cast at hge
      omega
  rw [relax_update input st coord d hb hw hge hmax, hnext,
    toSizeT_natCast _ (by push_cast; omega)]
  obtain ⟨hdx, hdy⟩ := dims_lt_of_mem input coord hcmem hsize
  have hadj : Adjacent coord (nextCoordOf coord d) :=
    (adjacent_iff _ _).mpr ⟨d, nextCoordOf_eq input coord hcmem hdx hdy d⟩
  have hsw : ShortestWalk input e (k + 1) (nextCoordOf coord d) := by
    refine ⟨WalkTo.step hcoord.1 hadj hopen, fun m hm => ?_⟩
    by_contra hlt
    obtain ⟨m', hm', hsw'⟩ := exists_shortestWalk hm
    have := hD _ m' (by omega) hsw'
    rw [hmax] at this
    simp only [INT32_MAX] at this
    omega
  have hnmem' : nextCoordOf coord d ∈ st.costs.coords := by rw [hcoords]; exact hnmem
  have hget_self : (st.costs.set (nextCoordOf coord d).y (nextCoordOf coord d).x
      ((k + 1 : Nat) : Int)).get (nextCoordOf coord d).y (nextCoordOf coord d).x
        = ((k + 1 : Nat) : Int) := get_set_self _ _ hnmem' _
  have hget_ne : ∀ c ∈ input.coords, c ≠ nextCoordOf coord d →
      (st.costs.set (nextCoordOf coord d).y (nextCoordOf coord d).x
        ((k + 1 : Nat) : Int)).get c.y c.x = st.costs.get c.y c.x := by
    intro c hc hne
    exact get_set_ne _ _ _ hnmem' (by rw [hcoords]; exact hc) hne _
  have hne_of_finite : ∀ c ∈ input.coords, st.costs.get c.y c.x ≠ INT32_MAX →
      c ≠ nextCoordOf coord d := by
    intro c _ hfin heq
    rw [heq] at hfin
    exact hfin hmax
  refine ⟨⟨sameShape_set hshape _ _ _, ?_, ?_⟩, ?_, ?_, ?_⟩
  · intro c hc
    by_cases hcn : c = nextCoordOf coord d
    · rw [hcn, hget_self]
      exact Or.inr ⟨k + 1, le_rfl, rfl, hsw⟩
    · simp only
      rw [hget_ne c hc hcn]
      exact hlab c hc
  · right
    simp only
    rcases hcand with ⟨hempty, hnone⟩ | ⟨L, hL, hcands, hmemL⟩
    · refine ⟨[nextCoordOf coord d], by simp, by rw [hempty]; rfl, fun c => ?_⟩
      rw [List.mem_singleton]
      constructor
      · rintro rfl
        exact ⟨hnmem, hget_self⟩
      · rintro ⟨hc, hv⟩
        by_contra hcn
        rw [hget_ne c hc hcn] at hv
        exact hnone c hc hv
    · refine ⟨L ++ [nextCoordOf coord d], by simp, ?_, fun c => ?_⟩
      · rw [hcands]
        simp [bucketModify]
      · rw [List.mem_append, List.mem_singleton, hmemL]
        constructor
        · rintro (⟨hc, hv⟩ | rfl)
          · refine ⟨hc, ?_⟩
            rw [hget_ne c hc (hne_of_finite c hc (by
              rw [hv]; simp only [INT32_MAX]; push_cast; omega))]
            exact hv
          · exact ⟨hnmem, hget_self⟩
        · rintro ⟨hc, hv⟩
          by_cases hcn : c = nextCoordOf coord d
          · exact Or.inr hcn
          · rw [hget_ne c hc hcn] at hv
            exact Or.inl ⟨hc, hv⟩
  · intro c n hn hswc
    have hc : c ∈ input.coords := isOpen_coords hswc.1.isOpen
    have hv := hD c n hn hswc
    simp only
    rw [hget_ne c hc (hne_of_finite c hc (by
      rw [hv]; simp only [INT32_MAX]; omega))]
    exact hv
  · intro c hc hfin
    exact hget_ne c hc (hne_of_finite c hc hfin)
  · intro _
    simp only
    rw [hget_self]
    simp only [INT32_MAX]
    push_cast
    omega

/-- A fold whose steps keep an invariant `P`, are related by a preorder `R`,
and each establish a fact `Q a` that later steps keep. -/
theorem foldl_establish {σ α : Type} (f : σ → α → σ) (P : σ → Prop) (R : σ → σ → Prop)
    (Q : α → σ → Prop) (good : α → Prop)
    (hrefl : ∀ s, R s s) (htrans : ∀ a b c, R a b → R b c → R a c)
    (hstep : ∀ s a, P s → good a → P (f s a) ∧ R s (f s a) ∧ Q a (f s a))
    (hmono : ∀ a s s', R s s' → Q a s → Q a s')
    (l : List α) (hl : ∀ a ∈ l, good a) (s : σ) (hP : P s) :
    P (l.foldl f s) ∧ R s (l.foldl f s) ∧ ∀ a ∈ l, Q a (l.foldl f s) := by
  induction l generalizing s with
  | nil => exact ⟨hP, hrefl s, fun a ha => absurd ha (List.not_mem_nil a)⟩
  | cons a l ih =>
    obtain ⟨hP1, hR1, hQ1⟩ := hstep s a hP (hl a (List.mem_cons_self _ _))
    obtain ⟨hP2, hR2, hQ2⟩ := ih (fun b hb => hl b (List.mem_cons_of_mem _ hb)) (f s a) hP1
    refine ⟨hP2, htrans _ _ _ hR1 hR2, fun b hb => ?_⟩
    rcases List.mem_cons.mp hb with rfl | hb
    · exact hmono _ _ _ hR2 hQ1
    · exact hQ2 b hb

/-- Relaxing the neighbours of one cell of the bucket of cost `k`. -/
theorem relax_all_spec (dirs : List Direction) (input : TwoDVector Char) (e : Coord) (k : Nat)
    (hsize : ((input.XDim * input.YDim : Nat) : Int) < 2147483647)
    (st : DijkstraState) (hP : FieldShape input e (k + 1) st ∧ LevelsDone input e k st)
    (coord : Coord) (hcoord : ShortestWalk input e k coord) :
    (FieldShape input e (k + 1) (dirs.foldl (fun st d => relax input st coord d) st) ∧
        LevelsDone input e k (dirs.foldl (fun st d => relax input st coord d) st)) ∧
      Persist input st (dirs.foldl (fun st d => relax input st coord d) st) ∧
      ∀ d ∈ dirs, IsOpen input (nextCoordOf coord d) →
        (dirs.foldl (fun st d => relax input st coord d) st).costs.get
          (nextCoordOf coord d).y (nextCoordOf coord d).x ≠ INT32_MAX := by
  refine foldl_establish (fun st d => relax input st coord d)
    (fun s => FieldShape input e (k + 1) s ∧ LevelsDone input e k s) (Persist input)
    (fun d s => IsOpen input (nextCoordOf coord d) →
      s.costs.get (nextCoordOf coord d).y (nextCoordOf coord d).x ≠ INT32_MAX)
    (fun _ => True) (persist_refl input) (fun _ _ _ => persist_trans) ?_ ?_ dirs
    (fun _ _ => trivial) st hP
  · intro s d hs _
    obtain ⟨h1, h2, h3, h4⟩ := relax_spec input e k hsize s hs.1 hs.2 coord hcoord d
    exact ⟨⟨h1, h2⟩, h3, h4⟩
  · intro d s s' hR hQ ho
    rw [hR _ (isOpen_coords ho) (hQ ho)]
    exact hQ ho

theorem bucketErase_single (k : Nat) (L : List Coord) : bucketErase [(k, L)] k = [] := by
  simp [bucketErase]

/-- One iteration of the `while` loop: from the invariant at cost `k` with a
non-empty queue to the invariant at cost `k + 1`. -/
theorem DijkstrasStep_spec (dirs : List Direction) (hdirs : ∀ d : Direction, d ∈ dirs)
    (input : TwoDVector Char) (e : Coord) (k : Nat)
    (hsize : ((input.XDim * input.YDim : Nat) : Int) < 2147483647)
    (st : DijkstraState) (hI : LoopInv input e k st) (hne : st.candidates ≠ []) :
    LoopInv input e (k + 1) (DijkstrasStep dirs input st) := by
  obtain ⟨⟨hshape, hlab, hcand⟩, hD, hlev⟩ := hI
  rcases hcand with ⟨hempty, _⟩ | ⟨L, hL, hcands, hmemL⟩
  · exact absurd hempty hne
  have hgood : ∀ c ∈ L, ShortestWalk input e k c := by
    intro c hc
    obtain ⟨hcm, hv⟩ := (hmemL c).mp hc
    rcases hlab c hcm with h | ⟨n, _, hn, hsw⟩
    · rw [h] at hv
      exfalso
      obtain ⟨c0, hc0⟩ := List.exists_mem_of_ne_nil L hL
      simp only [INT32_MAX] at hv
      have hbound : ((input.XDim * input.YDim : Nat) : Int) < 2147483647 := hsize
      -- the sentinel is not a cost of a bucket: it would exceed the cell count
      have : (k : Int) = 2147483647 := hv.symm
      have hk0 : ∀ j, j < k → ∃ c, ShortestWalk input e j c := hlev
      have := level_bound (k := k - 1) (fun j hj => hk0 j (by omega))
      omega
    · have : n = k := by
        rw [hn] at hv
        exact_mod_cast hv
      rw [← this]
      exact hsw
  obtain ⟨c0, hc0⟩ := List.exists_mem_of_ne_nil L hL
  have hkN : k + 1 ≤ input.XDim * input.YDim := shortestWalk_lt (hgood c0 hc0)
  have hstep : DijkstrasStep dirs input st
      = L.foldl (fun st coord => dirs.foldl (fun st d => relax input st coord d) st)
          { st with candidates := [] } := by
    unfold DijkstrasStep
    rw [hcands]
    simp only [bucketErase_single]
  rw [hstep]
  have hP0 : FieldShape input e (k + 1) { st with candidates := [] } ∧
      LevelsDone input e k { st with candidates := [] } := by
    refine ⟨⟨hshape, fun c hc => ?_, Or.inl ⟨rfl, fun c hc hv => ?_⟩⟩, hD⟩
    · rcases hlab c hc with h | ⟨n, hn, hv, hsw⟩
      · exact Or.inl h
      · exact Or.inr ⟨n, by omega, hv, hsw⟩
    · rcases hlab c hc with h | ⟨n, hn, hv', _⟩
      · simp only at hv
        rw [h] at hv
        simp only [INT32_MAX] at hv
        push_cast at hv
        omega
      · simp only at hv
        rw [hv'] at hv
        have : n = k + 1 := by exact_mod_cast hv
        omega
  obtain ⟨⟨hF', hD'⟩, _, hQ⟩ := foldl_establish
    (fun st coord => dirs.foldl (fun st d => relax input st coord d) st)
    (fun s => FieldShape input e (k + 1) s ∧ LevelsDone input e k s) (Persist input)
    (fun coord s => ∀ d ∈ dirs, IsOpen input (nextCoordOf coord d) →
      s.costs.get (nextCoordOf coord d).y (nextCoordOf coord d).x ≠ INT32_MAX)
    (fun coord => ShortestWalk input e k coord) (persist_refl input)
    (fun _ _ _ => persist_trans)
    (fun s coord hs hcoord => relax_all_spec dirs input e k hsize s hs coord hcoord)
    (fun coord s s' hR hQ d hd ho => by
      rw [hR _ (isOpen_coords ho) (hQ d hd ho)]
      exact hQ d hd ho)
    L hgood _ hP0
  refine ⟨hF', fun c' n hn hsw => ?_, fun j hj => ?_⟩
  · by_cases hnk : n ≤ k
    · exact hD' c' n hnk hsw
    · have hn1 : n = k + 1 := by omega
      subst hn1
      obtain ⟨c, hswc, hadj⟩ := shortestWalk_pred hsw
      have hcm : c ∈ input.coords := isOpen_coords hswc.1.isOpen
      have hcL : c ∈ L := (hmemL c).mpr ⟨hcm, hD c k le_rfl hswc⟩
      obtain ⟨d, hd⟩ := (adjacent_iff c c').mp hadj
      obtain ⟨hdx, hdy⟩ := dims_lt_of_mem input c hcm hsize
      have hnc : nextCoordOf c d = c' := by rw [nextCoordOf_eq input c hcm hdx hdy d, hd]
      have hfin := hQ c hcL d (hdirs d) (by rw [hnc]; exact hsw.1.isOpen)
      rw [hnc] at hfin
      rcases hF'.2.1 c' (isOpen_coords hsw.1.isOpen) with h | ⟨m, _, hv, hswm⟩
      · exact absurd h hfin
      · rw [hv, shortestWalk_unique hswm hsw]
  · by_cases hjk : j < k
    · exact hlev j hjk
    · have : j = k := by omega
      subst this
      exact ⟨c0, hgood c0 hc0⟩

/-- From the loop invariant, enough fuel lets the `while` loop finish, and the
field it returns is the true shortest-path field. -/
theorem DijkstrasLoop_spec (dirs : List Direction) (hdirs : ∀ d : Direction, d ∈ dirs)
    (input : TwoDVector Char) (e : Coord)
    (hsize : ((input.XDim * input.YDim : Nat) : Int) < 2147483647) :
    ∀ (fuel k : Nat) (st : DijkstraState), LoopInv input e k st →
      input.XDim * input.YDim + 1 ≤ k + fuel →
      ∃ r, DijkstrasLoop dirs input fuel st = some r ∧ IsDistanceField input e r := by
  intro fuel
  induction fuel with
  | zero =>
    intro k st hI hfuel
    exfalso
    have := level_bound (k := k - 1) (fun j hj => hI.2.2 j (by omega))
    omega
  | succ fuel ih =>
    intro k st hI hfuel
    unfold DijkstrasLoop
    by_cases hemp : st.candidates = []
    · rw [hemp]
      simp only [List.isEmpty_nil, if_true]
      refine ⟨st.costs, rfl, hI.1.1, fun c hc => ⟨fun n hsw => ?_, fun hno => ?_⟩⟩
      · by_cases hnk : n ≤ k
        · exact hI.2.1 c n hnk hsw
        · exfalso
          obtain ⟨c', hc'⟩ := shortestWalk_level hsw k (by omega)
          have hv := hI.2.1 c' k le_rfl hc'
          rcases hI.1.2.2 with ⟨_, hnone⟩ | ⟨L, hL, hcands, _⟩
          · exact hnone c' (isOpen_coords hc'.1.isOpen) hv
          · rw [hcands] at hemp
            exact absurd hemp (by simp)
      · rcases hI.1.2.1 c hc with h | ⟨n, _, _, hsw⟩
        · exact h
        · exact absurd hsw.1 (hno n)
    · have hne : st.candidates.isEmpty = false := by
        cases hc : st.candidates with
        | nil => exact absurd hc hemp
        | cons a l => rfl
      rw [hne]
      simp only [Bool.false_eq_true, if_false]
      exact ih (k + 1) _ (DijkstrasStep_spec dirs hdirs input e k hsize st hI hemp) (by omega)

theorem DijkstrasLoop_mono (dirs : List Direction) (input : TwoDVector Char) :
    ∀ (fuel : Nat) (st : DijkstraState) (r : TwoDVector Int),
      DijkstrasLoop dirs input fuel st = some r →
      ∀ extra, DijkstrasLoop dirs input (fuel + extra) st = some r := by
  intro fuel
  induction fuel with
  | zero =>
    intro st r h
    simp [DijkstrasLoop] at h
  | succ fuel ih =>
    intro st r h extra
    have hadd : fuel + 1 + extra = (fuel + extra) + 1 := by omega
    rw [hadd]
    unfold DijkstrasLoop at h ⊢
    split at h
    · rename_i hc
      rw [if_pos hc]
      exact h
    · rename_i hc
      rw [if_neg hc]
      exact ih _ r h extra

/-- The state with which `Dijkstras` enters its `while` loop satisfies the loop
invariant at cost 0. -/
theorem loopInv_init (input : TwoDVector Char) (e : Coord) (he : IsOpen input e) :
    LoopInv input e 0
      { costs := (initialCosts input).set e.y e.x 0, candidates := [(0, [e])] } := by
  have hem : e ∈ input.coords := isOpen_coords he
  have hshape0 : SameShape input (initialCosts input) := by
    refine ⟨rfl, ?_⟩
    unfold initialCosts
    simp
  have hem' : e ∈ (initialCosts input).coords := by rw [initialCosts_coords]; exact hem
  have hself : ((initialCosts input).set e.y e.x 0).get e.y e.x = 0 :=
    get_set_self _ _ hem' _
  have hother : ∀ c ∈ input.coords, c ≠ e →
      ((initialCosts input).set e.y e.x 0).get c.y c.x = INT32_MAX := by
    intro c hc hne
    rw [get_set_ne _ _ _ hem' (by rw [initialCosts_coords]; exact hc) hne,
      initialCosts_get input c hc]
  refine ⟨⟨sameShape_set hshape0 _ _ _, fun c hc => ?_, Or.inr ⟨[e], by simp, rfl, fun c => ?_⟩⟩,
    fun c n hn hsw => ?_, fun j hj => absurd hj (Nat.not_lt_zero j)⟩
  · by_cases hce : c = e
    · rw [hce]
      exact Or.inr ⟨0, le_rfl, hself, shortestWalk_zero he⟩
    · exact Or.inl (hother c hc hce)
  · rw [List.mem_singleton]
    constructor
    · rintro rfl
      exact ⟨hem, hself⟩
    · rintro ⟨hc, hv⟩
      by_contra hce
      simp only at hv
      rw [hother c hc hce] at hv
      simp [INT32_MAX] at hv
  · have hn0 : n = 0 := by omega
    subst hn0
    rw [walkTo_zero hsw.1]
    exact hself

/-! ## The corridor walk of `SimplePathFind` -/

theorem cellAt_mem {path : List Coord} {i : Nat} (h : i < path.length) :
    cellAt path i ∈ path := by
  unfold cellAt
  rw [List.getD_eq_getElem _ _ h]
  exact List.getElem_mem h

theorem corridor_length {input : TwoDVector Char} {path : List Coord}
    (h : IsCorridorMaze input path) : 2 ≤ path.length := by
  obtain ⟨hne, hnd, hopen, _, _, hE, hS⟩ := h
  have hpos : 0 < path.length := List.length_pos.mpr hne
  by_contra hlt
  have h1 : path.length - 1 = 0 := by omega
  have hc := isOpen_coords (hopen _ (cellAt_mem hpos))
  have e1 := (hE _ hc).mpr rfl
  have e2 := (hS _ hc).mpr (by rw [h1])
  rw [e1] at e2
  exact absurd e2 (by decide)

/-- The result of `Dijkstras`: with fuel for one loop test per cell and one
more it returns the true shortest-path field towards the end cell that the
marker scan found. -/
theorem Dijkstras_spec (dirs : List Direction) (hdirs : ∀ d : Direction, d ∈ dirs)
    (input : TwoDVector Char)
    (hsize : ((input.XDim * input.YDim : Nat) : Int) < 2147483647)
    (he : IsOpen input (findMarkers input).2) :
    ∃ costs, IsDistanceField input (findMarkers input).2 costs ∧
      (∀ fuel, input.XDim * input.YDim + 1 ≤ fuel → Dijkstras dirs input fuel = some costs) ∧
      ∀ fuel r, Dijkstras dirs input fuel = some r → r = costs := by
  obtain ⟨r, hrun, hr⟩ := DijkstrasLoop_spec dirs hdirs input _ hsize
    (input.XDim * input.YDim + 1) 0 _ (loopInv_init input _ he) (by omega)
  refine ⟨r, hr, fun fuel hfuel => ?_, fun fuel r' hr' => ?_⟩
  · obtain ⟨extra, rfl⟩ : ∃ extra, fuel = input.XDim * input.YDim + 1 + extra :=
      ⟨fuel - (input.XDim * input.YDim + 1), by omega⟩
    exact DijkstrasLoop_mono dirs input _ _ _ hrun extra
  · have h1 := DijkstrasLoop_mono dirs input _ _ _ hrun fuel
    have h2 := DijkstrasLoop_mono dirs input _ _ _ hr' (input.XDim * input.YDim + 1)
    unfold Dijkstras at h2
    rw [Nat.add_comm fuel] at h2
    rw [h1] at h2
    exact (Option.some.inj h2).symm

theorem mem_DirectionIterator (d : Direction) : d ∈ DirectionIterator := by
  cases d <;> decide

/-- On a hit list without repeated pairs, no lookup finds its pair. -/
theorem foldl_recordLookup (hits : List (Cheat × Int))
    (st : (List Cheat × List (Int × Int)) × List Cheat)
    (hnd : (hits.map Prod.fst).Nodup) (hfresh : ∀ h ∈ hits, h.1 ∉ st.1.1) :
    hits.foldl recordLookup st = (hits.foldl recordCheat st.1, st.2) := by
  induction hits generalizing st with
  | nil => rfl
  | cons h hits ih =>
    rw [List.map_cons, List.nodup_cons] at hnd
    have hh : h.1 ∉ st.1.1 := hfresh h (List.mem_cons_self _ _)
    have hstep : recordLookup st h = (recordCheat st.1 h, st.2) := by
      unfold recordLookup
      rw [if_neg hh]
    have hrec : recordCheat st.1 h = (h.1 :: st.1.1, mapIncrement st.1.2 h.2) := by
      unfold recordCheat
      rw [if_neg hh]
    rw [List.foldl_cons, List.foldl_cons, hstep, ih _ hnd.2]
    intro h' hh' hmem
    rw [hrec] at hmem
    rcases List.mem_cons.mp hmem with heq | hmem
    · exact hnd.1 (heq ▸ List.mem_map_of_mem Prod.fst hh')
    · exact hfresh h' (List.mem_cons_of_mem _ hh') hmem

theorem foldl_mapIncrement_snd (hits : List (Cheat × Int)) (m : List (Int × Int)) :
    hits.foldl (fun cheats h => mapIncrement cheats h.2) m
      = (hits.map Prod.snd).foldl mapIncrement m := by
  induction hits generalizing m with
  | nil => rfl
  | cons h hits ih => simp [ih]

/-- C17: the seen-set of `CountCheats` is redundant. For every distance field,
no lookup `cheatsSeen.count(cheatId)` finds its pair already present (the four
nested loops bring each ordered pair to line 191 at most once), and
`CountCheats` with the deduplication removed returns the same histogram. -/
theorem CountCheats_seen_redundant (costGrid : TwoDVector Int) :
    CountCheatsFound costGrid = [] ∧
      ((CountCheatsHits costGrid).map Prod.fst).Nodup ∧
      CountCheatsNoSeen costGrid = CountCheats costGrid := by
  refine ⟨?_, ?_, ?_⟩
  · unfold CountCheatsFound
    rw [CountCheatsLoop_eq, foldl_recordLookup _ _ (nodup_countCheatsPairs costGrid)
      (fun _ _ => List.not_mem_nil _)]
  · rw [CountCheatsHits_eq]
    exact nodup_countCheatsPairs costGrid
  · unfold CountCheatsNoSeen
    rw [CountCheatsLoop_eq, foldl_mapIncrement_snd, CountCheats_eq_foldl]

/-- With no overflow, the pairs that reach line 191 with a key of at least 100
are the cheats within radius 20 whose saving is at least 100. -/
theorem length_filter_atLeast (costGrid : TwoDVector Int)
    (hx : (20 : Int) + costGrid.XDim ≤ 2147483648)
    (hy : (20 : Int) + costGrid.YDim ≤ 2147483648)
    (hcost : ∀ a ∈ costGrid.coords, distance costGrid a ≠ INT32_MAX →
      0 ≤ distance costGrid a ∧ distance costGrid a + 120 < 2147483648) :
    (((countCheatsPairs costGrid).filter (fun h => decide (100 ≤ h.2))).map Prod.fst).length
      = cheatCountAtLeast costGrid 20 100 := by
  unfold cheatCountAtLeast
  refine length_eq_of_mem_iff (nodup_filter_countCheatsPairs _ _)
    ((nodup_cheatsWithin _ _).filter _) (fun c => ?_)
  simp only [List.mem_map, List.mem_filter, decide_eq_true_eq]
  have hiff := mem_countCheatsPairs_iff costGrid hx hy
    (fun a ha hd => ⟨by linarith [(hcost a ha hd).1], by linarith [(hcost a ha hd).2]⟩)
    (fun a ha b hb hda hdb => by
      have h1 := hcost a ha hda
      have h2 := hcost b hb hdb
      linarith)
  constructor
  · rintro ⟨h, ⟨hmem, hkey⟩, rfl⟩
    obtain ⟨h1, _, h3⟩ := (hiff h).mp hmem
    exact ⟨h1, by rw [← h3]; exact hkey⟩
  · rintro ⟨h1, h2⟩
    exact ⟨(c, saving costGrid c.1 c.2), ⟨(hiff _).mpr ⟨h1, by linarith, rfl⟩, h2⟩, rfl⟩

theorem length_filter_split {β : Type} (l : List β) (p q : β → Bool) :
    (l.filter p).length
      = (l.filter (fun b => q b && p b)).length
        + (l.filter (fun b => !q b && p b)).length := by
  induction l with
  | nil => rfl
  | cons b l ih =>
    simp only [List.filter_cons]
    cases hp : p b <;> cases hq : q b <;> simp [ih] <;> omega

/-- The cheats within the larger radius that save at least the threshold are
those within the smaller radius together with those beyond it. -/
theorem cheatCountAtLeast_split (costGrid : TwoDVector Int) (lo hi threshold : Int)
    (h : lo ≤ hi) :
    cheatCountAtLeast costGrid hi threshold
      = cheatCountAtLeast costGrid lo threshold + cheatCountBetween costGrid lo hi threshold := by
  unfold cheatCountAtLeast cheatCountBetween
  rw [length_filter_split _ _ (fun c => decide (ManhattanDistance c.1 c.2 ≤ lo))]
  congr 1
  · unfold cheatsWithin
    simp only [List.filter_filter]
    congr 1
    refine List.filter_congr (fun c _ => ?_)
    by_cases h1 : ManhattanDistance c.1 c.2 ≤ lo
    · have h2 : ManhattanDistance c.1 c.2 ≤ hi := le_trans h1 h
      simp [h1, h2]
    · simp [h1]
  · congr 1
    refine List.filter_congr (fun c _ => ?_)
    by_cases h1 : ManhattanDistance c.1 c.2 ≤ lo
    · have h2 : ¬ lo < ManhattanDistance c.1 c.2 := not_lt.mpr h1
      simp [h1, h2]
    · have h2 : lo < ManhattanDistance c.1 c.2 := not_le.mp h1
      simp [h1, h2]

/-- C11, counterexample: on a 3×2 field with non-negative defined entries,
histogram mode counts six cheats while threshold mode at the part-1 radius 2
counts four: the pairs at Manhattan distance 3 are counted by `CountCheats`,
whose steps always range over the radius 20. -/
theorem Score_CountCheats_ne_ScoreCheats_two :
    Score (CountCheats ⟨3, [0, 1, 2, 200, 2147483647, 150]⟩) = 6 ∧
      ScoreCheats ⟨3, [0, 1, 2, 200, 2147483647, 150]⟩ 2 = 4 ∧
      Score (CountCheats ⟨3, [0, 1, 2, 200, 2147483647, 150]⟩)
        ≠ ScoreCheats ⟨3, [0, 1, 2, 200, 2147483647, 150]⟩ 2 := by
  have h1 : Score (CountCheats ⟨3, [0, 1, 2, 200, 2147483647, 150]⟩) = 6 := by
    rw [CountCheats_eq_foldl]
    decide
  have h2 : ScoreCheats ⟨3, [0, 1, 2, 200, 2147483647, 150]⟩ 2 = 4 := by decide
  refine ⟨h1, h2, ?_⟩
  rw [h1, h2]
  decide

/-- C11 (amended): histogram mode takes no radius and always counts at radius
20. For every distance field whose defined entries are non-negative and small
enough that no addition overflows, `Score(CountCheats(costGrid))` is
`ScoreCheats(costGrid, 2)` plus the number of cheats at Manhattan distance 3 to
20 that save at least 100 (reduced to the `int` range; exactly that sum when
the number of cheats within radius 20 saving at least 100 is below 2^31), so
the two agree at the part-1 radius exactly when there is no such cheat. -/
theorem Score_CountCheats_eq_ScoreCheats_two_add (costGrid : TwoDVector Int)
    (hx : (20 : Int) + costGrid.XDim ≤ 2147483648)
    (hy : (20 : Int) + costGrid.YDim ≤ 2147483648)
    (hcost : ∀ a ∈ costGrid.coords, distance costGrid a ≠ INT32_MAX →
      0 ≤ distance costGrid a ∧ distance costGrid a + 120 < 2147483648) :
    Score (CountCheats costGrid)
        = wrap32 (ScoreCheats costGrid 2 + cheatCountBetween costGrid 2 20 100) ∧
      ((cheatCountAtLeast costGrid 20 100 : Int) < 2147483648 →
        Score (CountCheats costGrid)
            = ScoreCheats costGrid 2 + cheatCountBetween costGrid 2 20 100 ∧
          (Score (CountCheats costGrid) = ScoreCheats costGrid 2
            ↔ cheatCountBetween costGrid 2 20 100 = 0)) := by
  have hS : Score (CountCheats costGrid)
      = wrap32 ((cheatCountAtLeast costGrid 20 100 : Nat) : Int) := by
    rw [Score_CountCheats, length_filter_atLeast costGrid hx hy hcost]
  have hT : ScoreCheats costGrid 2 = wrap32 ((cheatCountAtLeast costGrid 2 100 : Nat) : Int) := by
    rw [ScoreCheats_eq_length, ScoreCheatsHits_length costGrid 2
      (by have e : (((2 : Int).natAbs : Nat) : Int) = 2 := by decide
          rw [e]; linarith)
      (by have e : (((2 : Int).natAbs : Nat) : Int) = 2 := by decide
          rw [e]; linarith)
      (fun a ha hd => ⟨(hcost a ha hd).1, by linarith [(hcost a ha hd).2]⟩)]
  have hsplit := cheatCountAtLeast_split costGrid 2 20 100 (by norm_num)
  refine ⟨?_, fun hfit => ?_⟩
  · rw [hS, hT, wrap32_wrap32_add, hsplit]
    push_cast
    rfl
  · have h2 : ((cheatCountAtLeast costGrid 2 100 : Nat) : Int) < 2147483648 := by
      have : cheatCountAtLeast costGrid 2 100 ≤ cheatCountAtLeast costGrid 20 100 := by omega
      omega
    have hS' : Score (CountCheats costGrid) = (cheatCountAtLeast costGrid 20 100 : Int) := by
      rw [hS, wrap32_of_range (by omega) hfit]
    have hT' : ScoreCheats costGrid 2 = (cheatCountAtLeast costGrid 2 100 : Int) := by
      rw [hT, wrap32_of_range (by omega) h2]
    rw [hS', hT', hsplit]
    push_cast
    constructor
    · rfl
    · constructor
      · intro h
        omega
      · intro h
        rw [h]
        simp

/-- C11, witness: the 3×2 field of the counterexample: four cheats within
radius 2 and two more at Manhattan distance 3. -/
theorem Score_CountCheats_eq_ScoreCheats_two_add_witness :
    cheatCountBetween ⟨3, [0, 1, 2, 200, 2147483647, 150]⟩ 2 20 100 = 2 ∧
      (Score (CountCheats ⟨3, [0, 1, 2, 200, 2147483647, 150]⟩)
        = wrap32 (ScoreCheats ⟨3, [0, 1, 2, 200, 2147483647, 150]⟩ 2
          + cheatCountBetween ⟨3, [0, 1, 2, 200, 2147483647, 150]⟩ 2 20 100) ∧
      ((cheatCountAtLeast ⟨3, [0, 1, 2, 200, 2147483647, 150]⟩ 20 100 : Int) < 2147483648 →
        Score (CountCheats ⟨3, [0, 1, 2, 200, 2147483647, 150]⟩)
            = ScoreCheats ⟨3, [0, 1, 2, 200, 2147483647, 150]⟩ 2
              + cheatCountBetween ⟨3, [0, 1, 2, 200, 2147483647, 150]⟩ 2 20 100 ∧
          (Score (CountCheats ⟨3, [0, 1, 2, 200, 2147483647, 150]⟩)
              = ScoreCheats ⟨3, [0, 1, 2, 200, 2147483647, 150]⟩ 2
            ↔ cheatCountBetween ⟨3, [0, 1, 2, 200, 2147483647, 150]⟩ 2 20 100 = 0))) :=
  ⟨by decide, Score_CountCheats_eq_ScoreCheats_two_add ⟨3, [0, 1, 2, 200, 2147483647, 150]⟩
    (by decide) (by decide) (by decide)⟩

/-! ## The grid accesses of `ScoreCheats` -/

/-- With the accesses ignored, the traced loop nest is the loop nest of
`ScoreCheats`. -/
theorem ScoreCheatsTrace_eq_loop {σ : Type} (costGrid : TwoDVector Int) (cheatPeriod : Int)
    (hit : σ → Cheat → σ) (init : σ) :
    ScoreCheatsTrace costGrid cheatPeriod (fun s _ => s) (fun s _ => s) hit init
      = ScoreCheatsLoop costGrid cheatPeriod hit init := rfl

/-- On a 2×1 field whose first cell holds 100, `ScoreCheats` with radius 1 reads
the current cell of each of the two iterations and both cells of the row. -/
theorem ScoreCheatsReads_example :
    ScoreCheatsReads ⟨2, [100, 0]⟩ 1 = [⟨0, 0⟩, ⟨0, 0⟩, ⟨1, 0⟩, ⟨1, 0⟩] ∧
      ScoreCheatsChecks ⟨2, [100, 0]⟩ 1 = [⟨0, 0⟩, ⟨0, 0⟩, ⟨1, 0⟩] := by
  decide

/-! ## Grids without markers -/

theorem findMarkers_no_end (input : TwoDVector Char)
    (h : ∀ c ∈ input.coords, input.get c.y c.x ≠ 'E') : (findMarkers input).2 = ⟨0, 0⟩ := by
  rw [findMarkers_eq_foldl]
  generalize input.coords = l at h
  induction l using List.reverseRecOn with
  | nil => rfl
  | append_singleton l c ih =>
    rw [List.foldl_append, List.foldl_cons, List.foldl_nil,
      if_neg (h c (List.mem_append_right _ (List.mem_singleton_self c)))]
    have := ih (fun c' hc' => h c' (List.mem_append_left _ hc'))
    split
    · exact this
    · exact this

theorem findMarkers_no_start (input : TwoDVector Char)
    (h : ∀ c ∈ input.coords, input.get c.y c.x ≠ 'S') : (findMarkers input).1 = ⟨0, 0⟩ := by
  rw [findMarkers_eq_foldl]
  generalize input.coords = l at h
  induction l using List.reverseRecOn with
  | nil => rfl
  | append_singleton l c ih =>
    rw [List.foldl_append, List.foldl_cons, List.foldl_nil,
      if_neg (h c (List.mem_append_right _ (List.mem_singleton_self c)))]
    have := ih (fun c' hc' => h c' (List.mem_append_left _ hc'))
    split
    · exact this
    · exact this

/-- C12, counterexample: a 4×3 maze with neither an 'S' nor an 'E'. Neither
builder fails: both take (0, 0), a wall, for the missing markers and return the
field whose only defined entry is the 0 stored on that wall. -/
theorem builders_accept_markerless :
    (∀ c ∈ markerlessMaze.coords,
      markerlessMaze.get c.y c.x ≠ 'S' ∧ markerlessMaze.get c.y c.x ≠ 'E') ∧
    Dijkstras DirectionIterator markerlessMaze 2 = some ⟨4,
      [0, 2147483647, 2147483647, 2147483647,
       2147483647, 2147483647, 2147483647, 2147483647,
       2147483647, 2147483647, 2147483647, 2147483647]⟩ ∧
    SimplePathFind DirectionIterator markerlessMaze 1 = some ⟨4,
      [0, 2147483647, 2147483647, 2147483647,
       2147483647, 2147483647, 2147483647, 2147483647,
       2147483647, 2147483647, 2147483647, 2147483647]⟩ := by
  decide

/-- C12 (amended): a grid lacking its start or end marker is not rejected; the
builders have no error path and the missing coordinate stays (0, 0). For every
grid: with no 'S' cell `raceStart` is (0, 0); with no 'E' cell `raceEnd` is
(0, 0), and when the grid has fewer than `INT32_MAX` cells and its corner (0, 0)
is an open cell, `Dijkstras` returns the shortest-path field towards that
corner; with neither marker, on a grid that has a cell (0, 0), `SimplePathFind`
returns at once the initial field with 0 stored at (0, 0). -/
theorem builders_without_markers (dirs : List Direction) (hdirs : ∀ d : Direction, d ∈ dirs)
    (input : TwoDVector Char) :
    ((∀ c ∈ input.coords, input.get c.y c.x ≠ 'S') → (findMarkers input).1 = ⟨0, 0⟩) ∧
    ((∀ c ∈ input.coords, input.get c.y c.x ≠ 'E') →
      (findMarkers input).2 = ⟨0, 0⟩ ∧
      (((input.XDim * input.YDim : Nat) : Int) < 2147483647 → IsOpen input ⟨0, 0⟩ →
        ∃ costs,
          (∀ fuel, input.XDim * input.YDim + 1 ≤ fuel →
            Dijkstras dirs input fuel = some costs) ∧
          costs.get 0 0 = 0 ∧ IsDistanceField input ⟨0, 0⟩ costs)) ∧
    ((∀ c ∈ input.coords, input.get c.y c.x ≠ 'S' ∧ input.get c.y c.x ≠ 'E') →
      (⟨0, 0⟩ : Coord) ∈ input.coords →
      ∀ fuel, SimplePathFind dirs input (fuel + 1) = some ((initialCosts input).set 0 0 0)) := by
  refine ⟨findMarkers_no_start input,
    fun hE => ⟨findMarkers_no_end input hE, fun hsize ho => ?_⟩, fun hboth _ fuel => ?_⟩
  · have he : IsOpen input (findMarkers input).2 := by
      rw [findMarkers_no_end input hE]
      exact ho
    obtain ⟨costs, hfield, hrun, _⟩ := Dijkstras_spec dirs hdirs input hsize he
    rw [findMarkers_no_end input hE] at hfield
    exact ⟨costs, hrun, (hfield.2 _ (isOpen_coords ho)).1 0 (shortestWalk_zero ho), hfield⟩
  · unfold SimplePathFind
    rw [findMarkers_no_start input (fun c hc => (hboth c hc).1),
      findMarkers_no_end input (fun c hc => (hboth c hc).2)]
    unfold SimplePathFindLoop
    rw [if_pos rfl]

/-- C12, witness: a 3×2 maze with no 'E' whose corner (0, 0) is open;
`Dijkstras` returns the distances towards that corner. -/
theorem builders_without_markers_witness :
    (∀ c ∈ noEndMaze.coords, noEndMaze.get c.y c.x ≠ 'E') ∧
    Dijkstras DirectionIterator noEndMaze 7 = some ⟨3, [0, 1, 2147483647, 2147483647, 2, 3]⟩ ∧
    (((∀ c ∈ noEndMaze.coords, noEndMaze.get c.y c.x ≠ 'S') →
        (findMarkers noEndMaze).1 = ⟨0, 0⟩) ∧
      ((∀ c ∈ noEndMaze.coords, noEndMaze.get c.y c.x ≠ 'E') →
        (findMarkers noEndMaze).2 = ⟨0, 0⟩ ∧
        (((noEndMaze.XDim * noEndMaze.YDim : Nat) : Int) < 2147483647 →
          IsOpen noEndMaze ⟨0, 0⟩ → ∃ costs,
            (∀ fuel, noEndMaze.XDim * noEndMaze.YDim + 1 ≤ fuel →
              Dijkstras DirectionIterator noEndMaze fuel = some costs) ∧
            costs.get 0 0 = 0 ∧ IsDistanceField noEndMaze ⟨0, 0⟩ costs)) ∧
      ((∀ c ∈ noEndMaze.coords, noEndMaze.get c.y c.x ≠ 'S' ∧ noEndMaze.get c.y c.x ≠ 'E') →
        (⟨0, 0⟩ : Coord) ∈ noEndMaze.coords →
        ∀ fuel, SimplePathFind DirectionIterator noEndMaze (fuel + 1)
          = some ((initialCosts noEndMaze).set 0 0 0))) :=
  ⟨by decide, by decide,
    builders_without_markers DirectionIterator mem_DirectionIterator noEndMaze⟩

/-! ## The number of bucket extractions and the size of the costs -/

/-- A relaxation that does not reach line 95 leaves the state unchanged. -/
theorem relax_of_not_assigns (input : TwoDVector Char) (st : DijkstraState) (coord : Coord)
    (d : Direction) (h : relaxAssigns input ⟨st, coord, d⟩ = false) :
    relax input st coord d = st := by
  unfold relaxAssigns at h
  simp only [Bool.and_eq_false_iff, decide_eq_false_iff_not, not_not] at h
  rcases h with (h | h) | h
  · exact relax_skip_bounds input st coord d h
  · exact relax_skip_wall input st coord d h
  · exact relax_skip_cost input st coord d h

/-- A corridor maze satisfies the corridor precondition: its open cells, all
connected to E, form a single simple path with endpoints E and S. -/
theorem corridorToEnd_of_corridor {input : TwoDVector Char} {path : List Coord}
    (h : IsCorridorMaze input path) : IsCorridorToEnd input path := by
  have hlen := corridor_length h
  obtain ⟨hne, hnd, hopen, hall, hadj, hE, hS⟩ := h
  refine ⟨hne, hnd, hopen, ?_, ?_, fun c n hw => ?_, hadj⟩
  · exact (hE _ (isOpen_coords (hopen _ (cellAt_mem (by omega))))).mpr rfl
  · exact (hS _ (isOpen_coords (hopen _ (cellAt_mem (by omega))))).mpr rfl
  · exact hall c (isOpen_coords hw.isOpen) hw.isOpen.2

theorem pathMaze_of_corridor {input : TwoDVector Char} {path : List Coord}
    (h : IsCorridorMaze input path) : IsPathMaze input path (path.length - 1) := by
  have hlen := corridor_length h
  obtain ⟨_, hnd, hopen, hall, hadj, hE, hS⟩ := h
  exact ⟨by omega, hnd, hopen, hall, hadj, hE, hS⟩

end Aoc2024Day20
